import Mathlib

/-!
Shallow embedding of `verify_cycle.py`, the standalone Pump Pot reward
verification script (core calculation logic, lines 30-123).

Modelling conventions:
* Python `float` values (balances, volumes, weights) are embedded as `ℚ`.
* Python `dict`s are embedded as association lists `List (String × _)` kept in
  insertion order; assignment `d[k] = v` is `upsert`, lookup `d[k]` is a
  first-match `find?` (dictionaries have unique keys, so first match is the
  only match), and `d.get(k, v0)` is `lookupD`.
* The `random` module is external library code, so it is embedded as an
  abstract deterministic stream: `random.seed(s)` yields the generator state
  `⟨seedGen s, 0⟩` for an arbitrary seed-to-stream map `seedGen`, and each
  call of `random.uniform` / `random.choice` consumes exactly one value of
  the stream and advances the position by one.  `random.uniform 0 t` returns
  `t * u`, and `random.choice seq` returns the element at the clamped index
  `⌊u * len⌋` for the consumed stream value `u`.
* `KeyError` from a missing dictionary key (e.g. `s["largest_buy"]` on a row
  that lacks the field) is embedded with `Except String`; row fields that the
  script may find missing are `Option`-valued in `CycleStat`.
-/

namespace PumpPot

attribute [local semireducible] Rat.mul Rat.add Rat.sub Rat.inv Rat.ofScientific

/-- Decidable equality on fallible results, for evaluating concrete runs. -/
def exceptDecEq {ε α : Type} [DecidableEq ε] [DecidableEq α] :
    DecidableEq (Except ε α)
  | .error e, .error f =>
    if h : e = f then .isTrue (by rw [h]) else .isFalse (by simp [h])
  | .error _, .ok _ => .isFalse (by simp)
  | .ok _, .error _ => .isFalse (by simp)
  | .ok a, .ok b =>
    if h : a = b then .isTrue (by rw [h]) else .isFalse (by simp [h])

instance {ε α : Type} [DecidableEq ε] [DecidableEq α] : DecidableEq (Except ε α) :=
  exceptDecEq

/-- State of the seeded pseudo-random generator: the raw stream of samples in
`[0,1)` determined by the seed, and the number of samples consumed so far. -/
structure RandGen where
  stream : Nat → ℚ
  pos : Nat

/-- Consuming one sample advances the position and leaves the stream intact. -/
def advance (g : RandGen) : RandGen := ⟨g.stream, g.pos + 1⟩

/-- Draw one raw sample from the generator. -/
def nextU (g : RandGen) : ℚ × RandGen := (g.stream g.pos, advance g)

/-- Embedding of `random.uniform(0, total)`: one draw, scaled by `total`. -/
def randUniform (total : ℚ) (g : RandGen) : ℚ × RandGen :=
  (total * (nextU g).1, (nextU g).2)

/-- Index drawn by `random.choice` on a sequence of length `n`: one draw,
mapped to a position (clamped into range). -/
def randIndex (n : Nat) (g : RandGen) : Nat × RandGen :=
  (min ((nextU g).1 * (n : ℚ)).floor.toNat (n - 1), (nextU g).2)

/-- Embedding of `random.choice(xs)`.  The script only calls it on non-empty
sequences; the `[]` case (an `IndexError` in Python) is mapped to `none`. -/
def randChoice (xs : List String) (g : RandGen) : Option String × RandGen :=
  match xs with
  | [] => (none, g)
  | x :: rest => (some ((x :: rest).getD (randIndex (x :: rest).length g).1 x), advance g)

/-- The `for item, weight in participants` scan of `_weighted_choice`
(lines 38-42): running sum `upto`, first hit of `upto + weight >= r`. -/
def scanLoop (r : ℚ) : List (String × ℚ) → ℚ → Option String
  | [], _ => none
  | (item, weight) :: rest, upto =>
    if upto + weight ≥ r then some item else scanLoop r rest (upto + weight)

/-- Embedding of `_weighted_choice(participants)` (lines 30-43), threading the
generator state explicitly. -/
def weightedChoice (participants : List (String × ℚ)) (g : RandGen) :
    Option String × RandGen :=
  match participants with
  | [] => (none, g)
  | p :: ps =>
    let total_weight := ((p :: ps).map Prod.snd).sum
    if total_weight = 0 then
      randChoice ((p :: ps).map Prod.fst) g
    else
      let r := (randUniform total_weight g).1
      match scanLoop r (p :: ps) 0 with
      | some item => (some item, advance g)
      | none => (some ((p :: ps).getLast (List.cons_ne_nil p ps)).1, advance g)

/-- One row of the `token_holders` list (final balance snapshot). -/
structure TokenHolder where
  address : String
  amount : ℚ
deriving DecidableEq

/-- One row of `cycle_stats_snapshot`.  Fields are `Option`-valued because the
script reads them with `row["field"]`, which raises `KeyError` when the field
is absent; `largest_buy_tx` additionally holds `string | null`. -/
structure CycleStat where
  total_volume : Option ℚ
  largest_buy : Option ℚ
  largest_buy_tx : Option (Option String)
  buys : Option ℚ
  sells : Option ℚ
deriving DecidableEq

/-- The two rule thresholds read from `rules`. -/
structure Rules where
  min_eligible_holding_amount : ℚ
  min_trade_volume : ℚ
deriving DecidableEq

/-- Python dictionary assignment `d[k] = v`: replace the value at the first
(unique) occurrence of `k` in place, or append a new entry. -/
def upsert : List (String × ℚ) → String → ℚ → List (String × ℚ)
  | [], k, v => [(k, v)]
  | p :: d, k, v => if p.1 == k then (k, v) :: d else p :: upsert d k v

/-- Line 57: `final_balances = {h["address"]: h["amount"] for h in token_holders}`. -/
def dictOfHolders (token_holders : List TokenHolder) : List (String × ℚ) :=
  token_holders.foldl (fun d h => upsert d h.address h.amount) []

/-- Python `d.get(k, v0)`. -/
def lookupD (d : List (String × ℚ)) (k : String) (v0 : ℚ) : ℚ :=
  match d.find? (fun p => p.1 == k) with
  | some p => p.2
  | none => v0

/-- Lines 58-61: the universally eligible wallets, as the list of keys of
`final_balances` that pass the filter (the Python set comprehension; every
later use of the set is sorted, so the list order is not observable). -/
def universallyEligible (final_balances : List (String × ℚ)) (rules : Rules) :
    List String :=
  (final_balances.filter
    (fun p => p.1 != "_start_signature" &&
      decide (p.2 ≥ rules.min_eligible_holding_amount))).map Prod.fst

/-- Common shape of the two weighted-category comprehensions `[(w, s[field])
for w, s in cycle_stats_snapshot.items() if w in universally_eligible_wallets
and keep (s[field])]` (lines 65 and 72).  A row of an eligible wallet that
lacks the field raises `KeyError`; rows of ineligible wallets are skipped by
the short-circuit `and` without reading any field. -/
def rowFilter (f : CycleStat → Option ℚ) (keep : ℚ → Bool) (fname : String)
    (elig : List String) :
    List (String × CycleStat) → Except String (List (String × ℚ))
  | [] => .ok []
  | (w, s) :: rest =>
    if elig.contains w then
      match f s with
      | none => .error ("KeyError: " ++ fname)
      | some v =>
        match rowFilter f keep fname elig rest with
        | .error e => .error e
        | .ok tl => .ok (if keep v then (w, v) :: tl else tl)
    else rowFilter f keep fname elig rest

/-- Lines 64-67 before sorting: the Power Buyer comprehension, keeping rows
with `s["largest_buy"] > 0`. -/
def pbFilter (elig : List String) (cs : List (String × CycleStat)) :
    Except String (List (String × ℚ)) :=
  rowFilter (fun s => s.largest_buy) (fun v => v > 0) "largest_buy" elig cs

/-- Lines 71-74 before sorting: the Volume King comprehension, keeping rows
with `s["total_volume"] >= rules["min_trade_volume"]`. -/
def vkFilter (rules : Rules) (elig : List String) (cs : List (String × CycleStat)) :
    Except String (List (String × ℚ)) :=
  rowFilter (fun s => s.total_volume) (fun v => v ≥ rules.min_trade_volume)
    "total_volume" elig cs

/-- Lines 78-85: the Active Holder loop over the universally eligible wallets
(iterated here in list order; the result is sorted afterwards, so the set
iteration order of the original is not observable). -/
def ahBuild (final_balances initial_balances : List (String × ℚ)) :
    List String → List (String × ℚ)
  | [] => []
  | w :: rest =>
    let final_balance := lookupD final_balances w 0
    let start_balance := lookupD initial_balances w 0
    let net_change := final_balance - start_balance
    let tl := ahBuild final_balances initial_balances rest
    if net_change ≥ 0 then
      let weight := 1 * net_change + 0.25 * start_balance
      if weight > 0 then (w, weight) :: tl else tl
    else tl

/-- Lexicographic comparison of character lists: the order Python uses to
compare strings (by code point), written as a structural `Bool` function. -/
def ltChars : List Char → List Char → Bool
  | [], [] => false
  | [], _ :: _ => true
  | _ :: _, [] => false
  | a :: as, b :: bs => if a < b then true else if b < a then false else ltChars as bs

/-- Strict lexicographic order on wallet addresses. -/
def strLt (a b : String) : Bool := ltChars a.data b.data

/-- Non-strict lexicographic order on wallet addresses. -/
def strLe (a b : String) : Bool := !strLt b a

/-- Insertion step of the sort (stable, like Python's `sorted`). -/
def insertB {α : Type} (le : α → α → Bool) (a : α) : List α → List α
  | [] => [a]
  | b :: l => if le a b then a :: b :: l else b :: insertB le a l

/-- Insertion sort with a boolean comparison, embedding Python's `sorted`
(with unique sort keys the result does not depend on the sort algorithm). -/
def sortB {α : Type} (le : α → α → Bool) : List α → List α
  | [] => []
  | a :: l => insertB le a (sortB le l)

/-- `sorted(participants, key=lambda item: item[0])`. -/
def sortByWallet (l : List (String × ℚ)) : List (String × ℚ) :=
  sortB (fun a b => strLe a.1 b.1) l

/-- The participant lists and drawn winners of the four categories
(intermediate state of `calculate_all_rewards_from_package`, lines 55-91). -/
structure Winners where
  pb_participants : List (String × ℚ)
  vk_participants : List (String × ℚ)
  ah_participants : List (String × ℚ)
  lottery_participants : List String
  pb_winner : Option String
  vk_winner : Option String
  ah_winner : Option String
  lottery_winner : Option String
deriving DecidableEq

/-- Lines 55-91 of `calculate_all_rewards_from_package`: seed the generator
once, build the participant lists, and draw the four winners in the fixed
order Power Buyer, Volume King, Active Holder, Lottery from the single
generator. -/
def calcWinners (seedGen : String → Nat → ℚ) (token_holders : List TokenHolder)
    (cycle_stats_snapshot : List (String × CycleStat))
    (initial_balances_snapshot : List (String × ℚ))
    (verification_seed : String) (rules : Rules) : Except String Winners :=
  let g0 : RandGen := ⟨seedGen verification_seed, 0⟩
  let final_balances := dictOfHolders token_holders
  let elig := universallyEligible final_balances rules
  match pbFilter elig cycle_stats_snapshot with
  | .error e => .error e
  | .ok pbRaw =>
    let pbParts := sortByWallet pbRaw
    let pbDraw := weightedChoice pbParts g0
    match vkFilter rules elig cycle_stats_snapshot with
    | .error e => .error e
    | .ok vkRaw =>
      let vkParts := sortByWallet vkRaw
      let vkDraw := weightedChoice vkParts pbDraw.2
      let ahParts := sortByWallet (ahBuild final_balances initial_balances_snapshot elig)
      let ahDraw := weightedChoice ahParts vkDraw.2
      let lotParts := sortB strLe elig
      let lotDraw := if lotParts.isEmpty then ((none : Option String), ahDraw.2)
                     else randChoice lotParts ahDraw.2
      .ok ⟨pbParts, vkParts, ahParts, lotParts, pbDraw.1, vkDraw.1, ahDraw.1, lotDraw.1⟩

/-- Winner record of the Power Buyer category (line 99). -/
structure PowerBuyerRecord where
  wallet : String
  metric : ℚ
  tx_signature : Option String
  win_chance_percent : ℚ
deriving DecidableEq

/-- Winner record of the Volume King category (line 106). -/
structure VolumeKingRecord where
  wallet : String
  metric : ℚ
  buys : ℚ
  sells : ℚ
  win_chance_percent : ℚ
deriving DecidableEq

/-- Winner record of the Active Holder category (line 115). -/
structure ActiveHolderRecord where
  wallet : String
  metric : ℚ
  final_balance : ℚ
  start_balance : ℚ
  win_chance_percent : ℚ
deriving DecidableEq

/-- Winner record of the Lottery category (line 121). -/
structure LotteryRecord where
  wallet : String
  metric : ℚ
  win_chance_percent : ℚ
deriving DecidableEq

/-- The four-category result dictionary. -/
structure RewardResults where
  power_buyer : Option PowerBuyerRecord
  volume_king : Option VolumeKingRecord
  active_holder : Option ActiveHolderRecord
  lottery : Option LotteryRecord
deriving DecidableEq

/-- Python dictionary access `d[k]` (raises `KeyError` when absent). -/
def dGet (d : List (String × CycleStat)) (k : String) : Except String CycleStat :=
  match d.find? (fun p => p.1 == k) with
  | some p => .ok p.2
  | none => .error ("KeyError: " ++ k)

/-- Python field access `row[name]` on an `Option`-valued field. -/
def fGet {α : Type} (v : Option α) (name : String) : Except String α :=
  match v with
  | some x => .ok x
  | none => .error ("KeyError: " ++ name)

/-- Lines 95-100: assembly of the Power Buyer record.  Note the Python
truthiness test `if power_buyer_winner_wallet:`, under which both `None` and
the empty string produce a `null` record. -/
def assemblePB (cycle_stats_snapshot : List (String × CycleStat)) (W : Winners) :
    Except String (Option PowerBuyerRecord) :=
  match W.pb_winner with
  | none => .ok none
  | some wlt =>
    if wlt = "" then .ok none
    else
      let total_weight := (W.pb_participants.map Prod.snd).sum
      match dGet cycle_stats_snapshot wlt with
      | .error e => .error e
      | .ok s =>
        match fGet s.largest_buy "largest_buy" with
        | .error e => .error e
        | .ok winner_weight =>
          match fGet s.largest_buy_tx "largest_buy_tx" with
          | .error e => .error e
          | .ok tx =>
            .ok (some { wallet := wlt, metric := winner_weight, tx_signature := tx,
                        win_chance_percent := if total_weight > 0 then
                          winner_weight / total_weight * 100 else 100 })

/-- Lines 102-107: assembly of the Volume King record. -/
def assembleVK (cycle_stats_snapshot : List (String × CycleStat)) (W : Winners) :
    Except String (Option VolumeKingRecord) :=
  match W.vk_winner with
  | none => .ok none
  | some wlt =>
    if wlt = "" then .ok none
    else
      let total_weight := (W.vk_participants.map Prod.snd).sum
      match dGet cycle_stats_snapshot wlt with
      | .error e => .error e
      | .ok s =>
        match fGet s.total_volume "total_volume" with
        | .error e => .error e
        | .ok winner_weight =>
          match fGet s.buys "buys" with
          | .error e => .error e
          | .ok buys =>
            match fGet s.sells "sells" with
            | .error e => .error e
            | .ok sells =>
              .ok (some { wallet := wlt, metric := winner_weight, buys := buys,
                          sells := sells,
                          win_chance_percent := if total_weight > 0 then
                            winner_weight / total_weight * 100 else 100 })

/-- Lines 109-116: assembly of the Active Holder record (no fallible access:
the winner weight is looked up in the participant list with default `0.0`). -/
def assembleAH (final_balances initial_balances_snapshot : List (String × ℚ))
    (W : Winners) : Option ActiveHolderRecord :=
  match W.ah_winner with
  | none => none
  | some wlt =>
    if wlt = "" then none
    else
      let total_weight := (W.ah_participants.map Prod.snd).sum
      let winner_weight :=
        ((W.ah_participants.find? (fun p => p.1 == wlt)).map Prod.snd).getD 0
      let winner_final_balance := lookupD final_balances wlt 0
      let winner_start_balance := lookupD initial_balances_snapshot wlt 0
      some { wallet := wlt, metric := winner_final_balance,
             final_balance := winner_final_balance,
             start_balance := winner_start_balance,
             win_chance_percent := if total_weight > 0 then
               winner_weight / total_weight * 100 else 100 }

/-- Lines 118-122: assembly of the Lottery record. -/
def assembleLot (final_balances : List (String × ℚ)) (W : Winners) :
    Option LotteryRecord :=
  match W.lottery_winner with
  | none => none
  | some wlt =>
    if wlt = "" then none
    else
      let total_participants := W.lottery_participants.length
      some { wallet := wlt, metric := lookupD final_balances wlt 0,
             win_chance_percent := if 0 < total_participants then
               (1 / (total_participants : ℚ)) * 100 else 100 }

/-- Lines 94-123: result assembly. -/
def assemble (cycle_stats_snapshot : List (String × CycleStat))
    (final_balances initial_balances_snapshot : List (String × ℚ))
    (W : Winners) : Except String RewardResults :=
  match assemblePB cycle_stats_snapshot W with
  | .error e => .error e
  | .ok power_buyer =>
    match assembleVK cycle_stats_snapshot W with
    | .error e => .error e
    | .ok volume_king =>
      .ok { power_buyer := power_buyer, volume_king := volume_king,
            active_holder := assembleAH final_balances initial_balances_snapshot W,
            lottery := assembleLot final_balances W }

/-- Embedding of `calculate_all_rewards_from_package` (lines 45-123). -/
def calculate_all_rewards_from_package (seedGen : String → Nat → ℚ)
    (token_holders : List TokenHolder)
    (cycle_stats_snapshot : List (String × CycleStat))
    (initial_balances_snapshot : List (String × ℚ))
    (verification_seed : String) (rules : Rules) : Except String RewardResults :=
  match calcWinners seedGen token_holders cycle_stats_snapshot
      initial_balances_snapshot verification_seed rules with
  | .error e => .error e
  | .ok W => assemble cycle_stats_snapshot (dictOfHolders token_holders)
      initial_balances_snapshot W

/-- `total = sum(weight for item, weight in participants)` (line 32). -/
def totalWeight (ps : List (String × ℚ)) : ℚ := (ps.map Prod.snd).sum

/-- Weight carried by wallet `w` in a participant list (first entry, `0.0`
when absent, as in line 111). -/
def partWeight (ps : List (String × ℚ)) (w : String) : ℚ :=
  ((ps.find? (fun p => p.1 == w)).map Prod.snd).getD 0

/-- Running sum `upto` of the scan just before position `i`: the sum of the
weights of the first `i` participants. -/
def prefixWeight (ps : List (String × ℚ)) (i : Nat) : ℚ :=
  ((ps.take i).map Prod.snd).sum

/-- Participant at position `i` (dummy entry out of range). -/
def entryAt (ps : List (String × ℚ)) (i : Nat) : String × ℚ :=
  ps.getD i ("", 0)

/-- Value of `upto + weight` tested by the scan at position `i`: running sum
of the first `i` weights plus the `i`-th weight. -/
def hitSum (ps : List (String × ℚ)) (i : Nat) : ℚ :=
  prefixWeight ps i + (entryAt ps i).2

/-- The value `r` drawn by `random.uniform(0, total_weight)` at line 37. -/
def uniformDraw (ps : List (String × ℚ)) (g : RandGen) : ℚ :=
  (randUniform (totalWeight ps) g).1

/-- A concrete seed-to-stream map for concrete runs: every raw sample is 1/2. -/
def halfStream : String → Nat → ℚ := fun _ _ => 1 / 2

/-- Holders of the specification's end-to-end scenario (§8). -/
def exHolders : List TokenHolder := [⟨"A", 100⟩, ⟨"B", 50⟩, ⟨"C", 0⟩]

/-- Cycle stats of the end-to-end scenario. -/
def exStats : List (String × CycleStat) :=
  [("A", ⟨some 20, some 5, some none, some 1, some 0⟩),
   ("B", ⟨some 30, some 0, some none, some 2, some 3⟩)]

/-- Initial balances of the end-to-end scenario, with the sentinel entry. -/
def exInitial : List (String × ℚ) := [("A", 80), ("B", 80), ("_start_signature", 0)]

/-- Rules of the end-to-end scenario. -/
def exRules : Rules := ⟨10, 25⟩

/-- Winners computed on the end-to-end scenario with `halfStream`. -/
def exWinners : Winners :=
  ⟨[("A", 5)], [("B", 30)], [("A", 40)], ["A", "B"],
    some "A", some "B", some "A", some "B"⟩

/-- Results computed on the end-to-end scenario with `halfStream`. -/
def exResults : RewardResults :=
  ⟨some ⟨"A", 5, none, 100⟩, some ⟨"B", 30, 2, 3, 100⟩,
    some ⟨"A", 100, 100, 80, 100⟩, some ⟨"B", 50, 50⟩⟩

/-- Holders for a run with a negative Volume King total weight. -/
def negHolders : List TokenHolder := [⟨"a", 100⟩, ⟨"b", 100⟩]

/-- Stats with negative and positive `total_volume` values. -/
def negStats : List (String × CycleStat) :=
  [("a", ⟨some (-5), some 0, some none, some 0, some 0⟩),
   ("b", ⟨some 2, some 0, some none, some 0, some 0⟩)]

/-- Rules with a negative `min_trade_volume`, admitting negative weights. -/
def negRules : Rules := ⟨0, -10⟩

/-- A single holder whose wallet address is the empty string. -/
def emptyNameHolders : List TokenHolder := [⟨"", 100⟩]

/-- A holder below the eligibility threshold of `lazyRules`. -/
def lazyHolders : List TokenHolder := [⟨"a", 5⟩]

/-- A stats row with every required field missing. -/
def lazyStats : List (String × CycleStat) := [("a", ⟨none, none, none, none, none⟩)]

/-- Rules under which the `lazyHolders` wallet is not eligible. -/
def lazyRules : Rules := ⟨10, 0⟩

/-- A holder that is eligible under `lazyRules`. -/
def eligHolders : List TokenHolder := [⟨"a", 50⟩]


/-! ### Lemmas and claim theorems -/

theorem insertB_perm {α : Type} (le : α → α → Bool) (a : α) (l : List α) :
    List.Perm (insertB le a l) (a :: l) := by
  induction l with
  | nil => simp [insertB]
  | cons b t ih =>
    simp only [insertB]
    cases h : le a b
    · simp only [Bool.false_eq_true, if_false]
      exact (ih.cons b).trans (List.Perm.swap a b t)
    · simp

theorem sortB_perm {α : Type} (le : α → α → Bool) (l : List α) :
    List.Perm (sortB le l) l := by
  induction l with
  | nil => simp [sortB]
  | cons a t ih => exact (insertB_perm le a (sortB le t)).trans (ih.cons a)

theorem mem_insertB {α : Type} {le : α → α → Bool} {a x : α} {l : List α} :
    x ∈ insertB le a l ↔ x = a ∨ x ∈ l := by
  rw [(insertB_perm le a l).mem_iff]
  simp

theorem mem_sortB {α : Type} {le : α → α → Bool} {x : α} {l : List α} :
    x ∈ sortB le l ↔ x ∈ l := (sortB_perm le l).mem_iff

theorem pairwise_insertB {α : Type} (le : α → α → Bool)
    (htot : ∀ a b, le a b = false → le b a = true)
    (htrans : ∀ a b c, le a b = true → le b c = true → le a c = true)
    (a : α) (l : List α) (hl : l.Pairwise (fun x y => le x y = true)) :
    (insertB le a l).Pairwise (fun x y => le x y = true) := by
  induction l with
  | nil => simp [insertB]
  | cons b t ih =>
    rcases List.pairwise_cons.mp hl with ⟨hb, ht⟩
    simp only [insertB]
    cases h : le a b
    · simp only [Bool.false_eq_true, if_false]
      refine List.pairwise_cons.mpr ⟨?_, ih ht⟩
      intro y hy
      rcases mem_insertB.mp hy with rfl | hy
      · exact htot y b h
      · exact hb y hy
    · simp only [if_true]
      refine List.pairwise_cons.mpr ⟨?_, hl⟩
      intro y hy
      rcases List.mem_cons.mp hy with rfl | hy
      · exact h
      · exact htrans a b y h (hb y hy)

theorem pairwise_sortB {α : Type} (le : α → α → Bool)
    (htot : ∀ a b, le a b = false → le b a = true)
    (htrans : ∀ a b c, le a b = true → le b c = true → le a c = true)
    (l : List α) : (sortB le l).Pairwise (fun x y => le x y = true) := by
  induction l with
  | nil => simp [sortB]
  | cons a t ih => exact pairwise_insertB le htot htrans a _ ih

theorem ltChars_eq_true_iff : ∀ as bs : List Char, ltChars as bs = true ↔ as < bs
  | [], [] => by
    constructor
    · intro h
      simp [ltChars] at h
    · intro h
      cases h
  | [], b :: bs => by
    constructor
    · intro _
      exact List.Lex.nil
    · intro _
      rfl
  | a :: as, [] => by
    constructor
    · intro h
      simp [ltChars] at h
    · intro h
      cases h
  | a :: as, b :: bs => by
    constructor
    · intro h
      by_cases h1 : a < b
      · exact List.Lex.rel h1
      · by_cases h2 : b < a
        · simp [ltChars, h1, h2] at h
        · have hab : a = b := le_antisymm (not_lt.mp h2) (not_lt.mp h1)
          subst hab
          exact List.Lex.cons
            ((ltChars_eq_true_iff as bs).mp (by simpa [ltChars, h1] using h))
    · intro h
      cases h with
      | cons h3 =>
        simp [ltChars, lt_irrefl, (ltChars_eq_true_iff as bs).mpr h3]
      | rel h1 => simp [ltChars, h1]

theorem strLt_eq_true_iff (a b : String) : strLt a b = true ↔ a < b := by
  rw [String.lt_iff_toList_lt]
  exact ltChars_eq_true_iff a.toList b.toList

theorem strLe_eq_true_iff (a b : String) : strLe a b = true ↔ a ≤ b := by
  constructor
  · intro h
    have hf : strLt b a = false := by
      cases hx : strLt b a
      · rfl
      · simp [strLe, hx] at h
    by_contra hnb
    have hba : b < a := lt_of_not_le hnb
    rw [← strLt_eq_true_iff] at hba
    rw [hba] at hf
    cases hf
  · intro h
    have hnlt : ¬ b < a := not_lt.mpr h
    have hf : strLt b a = false := by
      cases hx : strLt b a
      · rfl
      · exact absurd ((strLt_eq_true_iff b a).mp hx) hnlt
    simp [strLe, hf]

theorem strLe_total (a b : String) : strLe a b = false → strLe b a = true := by
  intro h
  rcases le_total b a with hba | hab
  · exact (strLe_eq_true_iff b a).mpr hba
  · have hx := (strLe_eq_true_iff a b).mpr hab
    rw [hx] at h
    cases h

theorem strLe_trans (a b c : String) (h1 : strLe a b = true) (h2 : strLe b c = true) :
    strLe a c = true :=
  (strLe_eq_true_iff a c).mpr
    (le_trans ((strLe_eq_true_iff a b).mp h1) ((strLe_eq_true_iff b c).mp h2))

theorem sorted_sortByWallet (l : List (String × ℚ)) :
    List.Sorted (fun a b : String × ℚ => a.1 ≤ b.1) (sortByWallet l) := by
  have hp := pairwise_sortB (fun a b : String × ℚ => strLe a.1 b.1)
    (fun a b h => strLe_total a.1 b.1 h)
    (fun a b c h1 h2 => strLe_trans a.1 b.1 c.1 h1 h2) l
  exact hp.imp (fun h => (strLe_eq_true_iff _ _).mp h)

theorem sorted_sortB_str (l : List String) :
    List.Sorted (fun a b : String => a ≤ b) (sortB strLe l) := by
  have hp := pairwise_sortB strLe strLe_total strLe_trans l
  exact hp.imp (fun h => (strLe_eq_true_iff _ _).mp h)

theorem getD_mem {α : Type} (xs : List α) (i : Nat) (d : α) (hd : d ∈ xs) :
    xs.getD i d ∈ xs := by
  rw [List.getD_eq_getElem?_getD]
  cases h : xs[i]? with
  | none => simpa using hd
  | some x =>
    have hx : x ∈ xs := List.getElem?_mem h
    simpa using hx

theorem randChoice_mem {xs : List String} {g : RandGen} {w : String}
    (h : (randChoice xs g).1 = some w) : w ∈ xs := by
  cases xs with
  | nil => simp [randChoice] at h
  | cons x rest =>
    simp only [randChoice] at h
    rw [← Option.some.inj h]
    exact getD_mem _ _ _ (List.mem_cons_self x rest)

theorem randChoice_isSome (xs : List String) (g : RandGen) (hne : xs ≠ []) :
    ∃ w, (randChoice xs g).1 = some w := by
  cases xs with
  | nil => exact absurd rfl hne
  | cons x rest => exact ⟨_, rfl⟩

theorem randChoice_snd (xs : List String) (g : RandGen) (hne : xs ≠ []) :
    (randChoice xs g).2 = advance g := by
  cases xs with
  | nil => exact absurd rfl hne
  | cons x rest => rfl

theorem prefixWeight_zero (ps : List (String × ℚ)) : prefixWeight ps 0 = 0 := rfl

theorem prefixWeight_cons_succ (a : String × ℚ) (t : List (String × ℚ)) (i : Nat) :
    prefixWeight (a :: t) (i + 1) = a.2 + prefixWeight t i := by
  simp [prefixWeight]

theorem entryAt_cons_zero (a : String × ℚ) (t : List (String × ℚ)) :
    entryAt (a :: t) 0 = a := rfl

theorem entryAt_cons_succ (a : String × ℚ) (t : List (String × ℚ)) (i : Nat) :
    entryAt (a :: t) (i + 1) = entryAt t i := rfl

theorem hitSum_cons_zero (a : String × ℚ) (t : List (String × ℚ)) :
    hitSum (a :: t) 0 = a.2 := by
  simp [hitSum, prefixWeight_zero, entryAt_cons_zero]

theorem hitSum_cons_succ (a : String × ℚ) (t : List (String × ℚ)) (i : Nat) :
    hitSum (a :: t) (i + 1) = a.2 + hitSum t i := by
  simp [hitSum, prefixWeight_cons_succ, entryAt_cons_succ, add_assoc]

theorem scanLoop_eq_some_iff (r : ℚ) :
    ∀ (ps : List (String × ℚ)) (u : ℚ) (w : String),
      scanLoop r ps u = some w ↔
        ∃ i, i < ps.length ∧ w = (entryAt ps i).1 ∧ u + hitSum ps i ≥ r ∧
          ∀ j, j < i → u + hitSum ps j < r
  | [], u, w => by simp [scanLoop]
  | (a, x) :: t, u, w => by
    simp only [scanLoop]
    by_cases hle : u + x ≥ r
    · rw [if_pos hle]
      constructor
      · intro h
        refine ⟨0, Nat.succ_pos _, ?_, ?_, ?_⟩
        · exact (Option.some.inj h).symm
        · rw [hitSum_cons_zero]
          exact hle
        · intro j hj
          exact absurd hj (Nat.not_lt_zero j)
      · rintro ⟨i, hi, hw, hge, hlt⟩
        cases i with
        | zero =>
          rw [entryAt_cons_zero] at hw
          rw [hw]
        | succ k =>
          have h0 := hlt 0 (Nat.succ_pos k)
          rw [hitSum_cons_zero] at h0
          exact absurd hle (not_le.mpr h0)
    · rw [if_neg hle]
      rw [scanLoop_eq_some_iff r t (u + x) w]
      have hux : u + x < r := not_le.mp hle
      constructor
      · rintro ⟨i, hi, hw, hge, hlt⟩
        refine ⟨i + 1, Nat.succ_lt_succ hi, ?_, ?_, ?_⟩
        · rw [entryAt_cons_succ]
          exact hw
        · rw [hitSum_cons_succ, ← add_assoc]
          exact hge
        · intro j hj
          cases j with
          | zero =>
            rw [hitSum_cons_zero]
            exact hux
          | succ m =>
            rw [hitSum_cons_succ, ← add_assoc]
            exact hlt m (Nat.lt_of_succ_lt_succ hj)
      · rintro ⟨i, hi, hw, hge, hlt⟩
        cases i with
        | zero =>
          rw [hitSum_cons_zero] at hge
          exact absurd hge (not_le.mpr hux)
        | succ k =>
          refine ⟨k, Nat.lt_of_succ_lt_succ hi, ?_, ?_, ?_⟩
          · rw [entryAt_cons_succ] at hw
            exact hw
          · rw [hitSum_cons_succ, ← add_assoc] at hge
            exact hge
          · intro j hj
            have := hlt (j + 1) (Nat.succ_lt_succ hj)
            rw [hitSum_cons_succ, ← add_assoc] at this
            exact this

theorem scanLoop_eq_none_iff (r : ℚ) :
    ∀ (ps : List (String × ℚ)) (u : ℚ),
      scanLoop r ps u = none ↔ ∀ i, i < ps.length → u + hitSum ps i < r
  | [], u => by simp [scanLoop]
  | (a, x) :: t, u => by
    simp only [scanLoop]
    by_cases hle : u + x ≥ r
    · rw [if_pos hle]
      constructor
      · intro h
        cases h
      · intro h
        have h0 := h 0 (Nat.succ_pos _)
        rw [hitSum_cons_zero] at h0
        exact absurd hle (not_le.mpr h0)
    · rw [if_neg hle]
      rw [scanLoop_eq_none_iff r t (u + x)]
      have hux : u + x < r := not_le.mp hle
      constructor
      · intro h i hi
        cases i with
        | zero =>
          rw [hitSum_cons_zero]
          exact hux
        | succ m =>
          rw [hitSum_cons_succ, ← add_assoc]
          exact h m (Nat.lt_of_succ_lt_succ hi)
      · intro h i hi
        have := h (i + 1) (Nat.succ_lt_succ hi)
        rw [hitSum_cons_succ, ← add_assoc] at this
        exact this

theorem scanLoop_mem (r : ℚ) :
    ∀ (ps : List (String × ℚ)) (u : ℚ) (w : String),
      scanLoop r ps u = some w → w ∈ ps.map Prod.fst
  | [], u, w => by simp [scanLoop]
  | (a, x) :: t, u, w => by
    simp only [scanLoop]
    by_cases hle : u + x ≥ r
    · rw [if_pos hle]
      intro h
      simp [← Option.some.inj h]
    · rw [if_neg hle]
      intro h
      simp only [List.map_cons, List.mem_cons]
      exact Or.inr (scanLoop_mem r t (u + x) w h)

theorem getLast_eq_entryAt (ps : List (String × ℚ)) (h : ps ≠ []) :
    ps.getLast h = entryAt ps (ps.length - 1) := by
  rw [List.getLast_eq_getElem]
  rw [entryAt, List.getD_eq_getElem?_getD,
    List.getElem?_eq_getElem (by
      have := List.length_pos.mpr h
      omega)]
  simp

theorem weightedChoice_snd (ps : List (String × ℚ)) (g : RandGen) (hne : ps ≠ []) :
    (weightedChoice ps g).2 = advance g := by
  cases ps with
  | nil => exact absurd rfl hne
  | cons p t =>
    simp only [weightedChoice]
    by_cases h0 : ((p :: t).map Prod.snd).sum = 0
    · rw [if_pos h0]
      exact randChoice_snd _ g (by simp)
    · rw [if_neg h0]
      cases hs : scanLoop ((randUniform ((p :: t).map Prod.snd).sum g).1) (p :: t) 0 <;> rfl

theorem weightedChoice_none_iff (ps : List (String × ℚ)) (g : RandGen) :
    (weightedChoice ps g).1 = none ↔ ps = [] := by
  cases ps with
  | nil => simp [weightedChoice]
  | cons p t =>
    simp only [weightedChoice]
    constructor
    · intro h
      by_cases h0 : ((p :: t).map Prod.snd).sum = 0
      · rw [if_pos h0] at h
        rcases randChoice_isSome ((p :: t).map Prod.fst) g (by simp) with ⟨w, hw⟩
        rw [hw] at h
        cases h
      · rw [if_neg h0] at h
        cases hs : scanLoop ((randUniform ((p :: t).map Prod.snd).sum g).1) (p :: t) 0 with
        | none =>
          rw [hs] at h
          cases h
        | some item =>
          rw [hs] at h
          cases h
    · intro h
      cases h

theorem weightedChoice_mem {ps : List (String × ℚ)} {g : RandGen} {w : String}
    (h : (weightedChoice ps g).1 = some w) : w ∈ ps.map Prod.fst := by
  cases ps with
  | nil => simp [weightedChoice] at h
  | cons p t =>
    simp only [weightedChoice] at h
    by_cases h0 : ((p :: t).map Prod.snd).sum = 0
    · rw [if_pos h0] at h
      exact randChoice_mem h
    · rw [if_neg h0] at h
      cases hs : scanLoop ((randUniform ((p :: t).map Prod.snd).sum g).1) (p :: t) 0 with
      | none =>
        rw [hs] at h
        have hw : ((p :: t).getLast (List.cons_ne_nil p t)).1 = w := Option.some.inj h
        rw [← hw]
        exact List.mem_map_of_mem Prod.fst (List.getLast_mem _)
      | some item =>
        rw [hs] at h
        rw [← Option.some.inj h]
        exact scanLoop_mem _ _ _ _ hs

theorem contains_eq_true_iff (l : List String) (w : String) :
    l.contains w = true ↔ w ∈ l := by
  simp

theorem rowFilter_ok_mem (f : CycleStat → Option ℚ) (keep : ℚ → Bool)
    (fname : String) (elig : List String) :
    ∀ (cs : List (String × CycleStat)) (l : List (String × ℚ)),
      rowFilter f keep fname elig cs = .ok l →
      ∀ (w : String) (x : ℚ),
        ((w, x) ∈ l ↔ ∃ s, (w, s) ∈ cs ∧ w ∈ elig ∧ f s = some x ∧ keep x = true) := by
  intro cs
  induction cs with
  | nil =>
    intro l h w x
    simp only [rowFilter] at h
    injection h with h
    subst h
    simp
  | cons p rest ih =>
    obtain ⟨w0, s0⟩ := p
    intro l h w x
    simp only [rowFilter] at h
    by_cases hc : elig.contains w0
    · rw [if_pos hc] at h
      cases hf : f s0 with
      | none =>
        rw [hf] at h
        cases h
      | some v =>
        rw [hf] at h
        cases hr : rowFilter f keep fname elig rest with
        | error e =>
          rw [hr] at h
          cases h
        | ok tl =>
          rw [hr] at h
          injection h with h
          subst h
          have ihe := ih tl hr w x
          by_cases hk : keep v
          · rw [if_pos hk]
            constructor
            · intro hmem
              rcases List.mem_cons.mp hmem with heq | htl
              · rcases Prod.mk.injEq .. ▸ heq with ⟨rfl, rfl⟩
                exact ⟨s0, List.mem_cons_self _ _,
                  (contains_eq_true_iff elig w).mp hc, hf, hk⟩
              · rcases ihe.mp htl with ⟨s, hs, he, hfs, hks⟩
                exact ⟨s, List.mem_cons_of_mem _ hs, he, hfs, hks⟩
            · rintro ⟨s, hs, he, hfs, hks⟩
              rcases List.mem_cons.mp hs with heq | hrest
              · rcases Prod.mk.injEq .. ▸ heq with ⟨rfl, rfl⟩
                rw [hf] at hfs
                have hv : v = x := Option.some.inj hfs
                subst hv
                exact List.mem_cons_self _ _
              · exact List.mem_cons_of_mem _ (ihe.mpr ⟨s, hrest, he, hfs, hks⟩)
          · rw [if_neg hk]
            constructor
            · intro hmem
              rcases ihe.mp hmem with ⟨s, hs, he, hfs, hks⟩
              exact ⟨s, List.mem_cons_of_mem _ hs, he, hfs, hks⟩
            · rintro ⟨s, hs, he, hfs, hks⟩
              rcases List.mem_cons.mp hs with heq | hrest
              · rcases Prod.mk.injEq .. ▸ heq with ⟨rfl, rfl⟩
                rw [hf] at hfs
                have hv : v = x := Option.some.inj hfs
                subst hv
                exact absurd hks hk
              · exact ihe.mpr ⟨s, hrest, he, hfs, hks⟩
    · rw [if_neg hc] at h
      have ihe := ih l h w x
      rw [ihe]
      constructor
      · rintro ⟨s, hs, he, hfs, hks⟩
        exact ⟨s, List.mem_cons_of_mem _ hs, he, hfs, hks⟩
      · rintro ⟨s, hs, he, hfs, hks⟩
        rcases List.mem_cons.mp hs with heq | hrest
        · rcases Prod.mk.injEq .. ▸ heq with ⟨rfl, rfl⟩
          exact absurd ((contains_eq_true_iff elig w).mpr he) hc
        · exact ⟨s, hrest, he, hfs, hks⟩

theorem rowFilter_ok_of_isSome (f : CycleStat → Option ℚ) (keep : ℚ → Bool)
    (fname : String) (elig : List String) :
    ∀ (cs : List (String × CycleStat)),
      (∀ p ∈ cs, (f p.2).isSome = true) →
      ∃ l, rowFilter f keep fname elig cs = .ok l := by
  intro cs
  induction cs with
  | nil => exact fun _ => ⟨[], rfl⟩
  | cons p rest ih =>
    intro hall
    obtain ⟨w0, s0⟩ := p
    rcases ih (fun q hq => hall q (List.mem_cons_of_mem _ hq)) with ⟨tl, htl⟩
    have hs0 : (f s0).isSome = true := hall (w0, s0) (List.mem_cons_self _ _)
    simp only [rowFilter]
    by_cases hc : elig.contains w0
    · rw [if_pos hc]
      cases hf : f s0 with
      | none =>
        rw [hf] at hs0
        cases hs0
      | some v =>
        rw [htl]
        exact ⟨_, rfl⟩
    · rw [if_neg hc]
      exact ⟨tl, htl⟩

theorem rowFilter_error_of_missing (f : CycleStat → Option ℚ) (keep : ℚ → Bool)
    (fname : String) (elig : List String) :
    ∀ (cs : List (String × CycleStat)) (w : String) (s : CycleStat),
      (w, s) ∈ cs → w ∈ elig → f s = none →
      ∃ e, rowFilter f keep fname elig cs = .error e := by
  intro cs
  induction cs with
  | nil =>
    intro w s hmem
    cases hmem
  | cons p rest ih =>
    intro w s hmem helig hmiss
    obtain ⟨w0, s0⟩ := p
    simp only [rowFilter]
    rcases List.mem_cons.mp hmem with heq | hrest
    · rcases Prod.mk.injEq .. ▸ heq with ⟨rfl, rfl⟩
      rw [if_pos ((contains_eq_true_iff elig w).mpr helig)]
      rw [hmiss]
      exact ⟨_, rfl⟩
    · by_cases hc : elig.contains w0
      · rw [if_pos hc]
        cases hf : f s0 with
        | none => exact ⟨_, rfl⟩
        | some v =>
          rcases ih w s hrest helig hmiss with ⟨e, he⟩
          rw [he]
          exact ⟨e, rfl⟩
      · rw [if_neg hc]
        exact ih w s hrest helig hmiss

theorem rowFilter_keys_sublist (f : CycleStat → Option ℚ) (keep : ℚ → Bool)
    (fname : String) (elig : List String) :
    ∀ (cs : List (String × CycleStat)) (l : List (String × ℚ)),
      rowFilter f keep fname elig cs = .ok l →
      (l.map Prod.fst).Sublist (cs.map Prod.fst) := by
  intro cs
  induction cs with
  | nil =>
    intro l h
    simp only [rowFilter] at h
    injection h with h
    subst h
    simp
  | cons p rest ih =>
    obtain ⟨w0, s0⟩ := p
    intro l h
    simp only [rowFilter] at h
    by_cases hc : elig.contains w0
    · rw [if_pos hc] at h
      cases hf : f s0 with
      | none =>
        rw [hf] at h
        cases h
      | some v =>
        rw [hf] at h
        cases hr : rowFilter f keep fname elig rest with
        | error e =>
          rw [hr] at h
          cases h
        | ok tl =>
          rw [hr] at h
          injection h with h
          subst h
          by_cases hk : keep v
          · rw [if_pos hk]
            simpa using (ih tl hr).cons₂ w0
          · rw [if_neg hk]
            exact (ih tl hr).cons w0
    · rw [if_neg hc] at h
      exact (ih l h).cons w0

theorem ahBuild_mem (fb ib : List (String × ℚ)) :
    ∀ (elig : List String) (w : String) (x : ℚ),
      (w, x) ∈ ahBuild fb ib elig ↔
        w ∈ elig ∧ lookupD fb w 0 - lookupD ib w 0 ≥ 0 ∧
          x = 1 * (lookupD fb w 0 - lookupD ib w 0) + 0.25 * lookupD ib w 0 ∧
          x > 0 := by
  intro elig
  induction elig with
  | nil =>
    intro w x
    simp [ahBuild]
  | cons w0 rest ih =>
    intro w x
    simp only [ahBuild]
    by_cases hnet : lookupD fb w0 0 - lookupD ib w0 0 ≥ 0
    · rw [if_pos hnet]
      by_cases hwt : 1 * (lookupD fb w0 0 - lookupD ib w0 0) + 0.25 * lookupD ib w0 0 > 0
      · rw [if_pos hwt]
        constructor
        · intro hmem
          rcases List.mem_cons.mp hmem with heq | htl
          · rcases Prod.mk.injEq .. ▸ heq with ⟨rfl, rfl⟩
            exact ⟨List.mem_cons_self _ _, hnet, rfl, hwt⟩
          · rcases (ih w x).mp htl with ⟨he, h1, h2, h3⟩
            exact ⟨List.mem_cons_of_mem _ he, h1, h2, h3⟩
        · rintro ⟨he, h1, h2, h3⟩
          rcases List.mem_cons.mp he with rfl | hrest
          · rw [h2]
            exact List.mem_cons_self _ _
          · exact List.mem_cons_of_mem _ ((ih w x).mpr ⟨hrest, h1, h2, h3⟩)
      · rw [if_neg hwt]
        rw [ih w x]
        constructor
        · rintro ⟨he, h1, h2, h3⟩
          exact ⟨List.mem_cons_of_mem _ he, h1, h2, h3⟩
        · rintro ⟨he, h1, h2, h3⟩
          rcases List.mem_cons.mp he with rfl | hrest
          · rw [h2] at h3
            exact absurd h3 hwt
          · exact ⟨hrest, h1, h2, h3⟩
    · rw [if_neg hnet]
      rw [ih w x]
      constructor
      · rintro ⟨he, h1, h2, h3⟩
        exact ⟨List.mem_cons_of_mem _ he, h1, h2, h3⟩
      · rintro ⟨he, h1, h2, h3⟩
        rcases List.mem_cons.mp he with rfl | hrest
        · exact absurd h1 hnet
        · exact ⟨hrest, h1, h2, h3⟩

theorem mem_universallyEligible (fbs : List (String × ℚ)) (rules : Rules) (w : String) :
    w ∈ universallyEligible fbs rules ↔
      w ≠ "_start_signature" ∧
        ∃ b, (w, b) ∈ fbs ∧ b ≥ rules.min_eligible_holding_amount := by
  simp only [universallyEligible, List.mem_map, List.mem_filter]
  constructor
  · rintro ⟨⟨w', b⟩, ⟨hmem, hcond⟩, rfl⟩
    simp only [Bool.and_eq_true, bne_iff_ne, ne_eq, decide_eq_true_eq] at hcond
    exact ⟨hcond.1, b, hmem, hcond.2⟩
  · rintro ⟨hne, b, hmem, hge⟩
    refine ⟨(w, b), ⟨hmem, ?_⟩, rfl⟩
    simp only [Bool.and_eq_true, bne_iff_ne, ne_eq, decide_eq_true_eq]
    exact ⟨hne, hge⟩

theorem upsert_of_forall_ne (d : List (String × ℚ)) (k : String) (v : ℚ)
    (hne : ∀ p ∈ d, p.1 ≠ k) : upsert d k v = d ++ [(k, v)] := by
  induction d with
  | nil => rfl
  | cons p t ih =>
    simp only [upsert]
    rw [if_neg (by simp [hne p (List.mem_cons_self _ _)])]
    rw [ih (fun q hq => hne q (List.mem_cons_of_mem _ hq))]
    simp

theorem dictOfHolders_eq_map (th : List TokenHolder)
    (hnd : (th.map TokenHolder.address).Nodup) :
    dictOfHolders th = th.map (fun x => (x.address, x.amount)) := by
  suffices hgen : ∀ (t : List TokenHolder) (d : List (String × ℚ)),
      (t.map TokenHolder.address).Nodup →
      (∀ p ∈ d, ∀ x ∈ t, p.1 ≠ x.address) →
      t.foldl (fun acc x => upsert acc x.address x.amount) d
        = d ++ t.map (fun x => (x.address, x.amount)) by
    simpa [dictOfHolders] using hgen th [] hnd (by simp)
  intro t
  induction t with
  | nil =>
    intro d _ _
    simp
  | cons hd tl ih =>
    intro d hnd2 hdisc
    rw [List.map_cons, List.nodup_cons] at hnd2
    obtain ⟨hnot, hnd3⟩ := hnd2
    simp only [List.foldl_cons]
    rw [upsert_of_forall_ne d hd.address hd.amount
      (fun p hp => hdisc p hp hd (List.mem_cons_self _ _))]
    rw [ih (d ++ [(hd.address, hd.amount)]) hnd3 ?_]
    · simp
    · intro p hp x hx
      rcases List.mem_append.mp hp with hp2 | hp2
      · exact hdisc p hp2 x (List.mem_cons_of_mem _ hx)
      · have hpd : p = (hd.address, hd.amount) := by simpa using hp2
        rw [hpd]
        intro hcontra
        apply hnot
        have hx2 := List.mem_map_of_mem TokenHolder.address hx
        rw [← hcontra] at hx2
        exact hx2

theorem find?_eq_of_nodup {α : Type} (d : List (String × α)) (k : String) (v : α)
    (hnd : (d.map Prod.fst).Nodup) (hm : (k, v) ∈ d) :
    d.find? (fun p => p.1 == k) = some (k, v) := by
  induction d with
  | nil => cases hm
  | cons p t ih =>
    rw [List.map_cons, List.nodup_cons] at hnd
    obtain ⟨hnot, hnd2⟩ := hnd
    rcases List.mem_cons.mp hm with heq | hm2
    · subst heq
      simp [List.find?]
    · have hne : p.1 ≠ k := by
        intro he
        exact hnot (he ▸ List.mem_map_of_mem Prod.fst hm2)
      simp only [List.find?]
      rw [show (p.1 == k) = false by simp [hne]]
      exact ih hnd2 hm2

theorem calcWinners_ok_spec (sg : String → Nat → ℚ) (th : List TokenHolder)
    (cs : List (String × CycleStat)) (ib : List (String × ℚ))
    (seed : String) (rules : Rules) (W : Winners)
    (h : calcWinners sg th cs ib seed rules = .ok W) :
    ∃ pbRaw vkRaw,
      pbFilter (universallyEligible (dictOfHolders th) rules) cs = .ok pbRaw ∧
      vkFilter rules (universallyEligible (dictOfHolders th) rules) cs = .ok vkRaw ∧
      W.pb_participants = sortByWallet pbRaw ∧
      W.vk_participants = sortByWallet vkRaw ∧
      W.ah_participants = sortByWallet (ahBuild (dictOfHolders th) ib
        (universallyEligible (dictOfHolders th) rules)) ∧
      W.lottery_participants = sortB strLe (universallyEligible (dictOfHolders th) rules) ∧
      W.pb_winner = (weightedChoice W.pb_participants ⟨sg seed, 0⟩).1 ∧
      W.vk_winner = (weightedChoice W.vk_participants
        (weightedChoice W.pb_participants ⟨sg seed, 0⟩).2).1 ∧
      W.ah_winner = (weightedChoice W.ah_participants
        (weightedChoice W.vk_participants
          (weightedChoice W.pb_participants ⟨sg seed, 0⟩).2).2).1 ∧
      W.lottery_winner = (if W.lottery_participants.isEmpty then none
        else (randChoice W.lottery_participants
          (weightedChoice W.ah_participants
            (weightedChoice W.vk_participants
              (weightedChoice W.pb_participants ⟨sg seed, 0⟩).2).2).2).1) := by
  simp only [calcWinners] at h
  cases hpb : pbFilter (universallyEligible (dictOfHolders th) rules) cs with
  | error e =>
    rw [hpb] at h
    cases h
  | ok pbRaw =>
    rw [hpb] at h
    cases hvk : vkFilter rules (universallyEligible (dictOfHolders th) rules) cs with
    | error e =>
      rw [hvk] at h
      cases h
    | ok vkRaw =>
      rw [hvk] at h
      injection h with h
      subst h
      refine ⟨pbRaw, vkRaw, rfl, rfl, rfl, rfl, rfl, rfl, rfl, rfl, rfl, ?_⟩
      by_cases hl : (sortB strLe (universallyEligible (dictOfHolders th) rules)).isEmpty
      · simp [hl]
      · simp [hl]

/-- C1: Determinism: for every fixed input (token holders, cycle stats,
initial balances, verification seed, rules) and fixed pseudo-random stream
map, two independent evaluations of the reward calculation produce identical
winner records for all four categories. -/
theorem C1_determinism (sg1 sg2 : String → Nat → ℚ) (th1 th2 : List TokenHolder)
    (cs1 cs2 : List (String × CycleStat)) (ib1 ib2 : List (String × ℚ))
    (seed1 seed2 : String) (r1 r2 : Rules)
    (hsg : sg1 = sg2) (hth : th1 = th2) (hcs : cs1 = cs2) (hib : ib1 = ib2)
    (hseed : seed1 = seed2) (hr : r1 = r2) :
    calculate_all_rewards_from_package sg1 th1 cs1 ib1 seed1 r1 =
      calculate_all_rewards_from_package sg2 th2 cs2 ib2 seed2 r2 := by
  rw [hsg, hth, hcs, hib, hseed, hr]

theorem C1_witness :
    calculate_all_rewards_from_package halfStream exHolders exStats exInitial
        "test" exRules =
      calculate_all_rewards_from_package halfStream exHolders exStats exInitial
        "test" exRules :=
  C1_determinism halfStream halfStream exHolders exHolders exStats exStats
    exInitial exInitial "test" "test" exRules exRules rfl rfl rfl rfl rfl rfl

/-- C2: the weighted draw: an empty participant list returns no winner (and
does not touch the generator); a zero weight total consumes exactly one draw
and returns the participant at the drawn index; otherwise exactly one draw
`r` from `[0, total)` is consumed, the participant list is scanned in order
accumulating `upto`, the first participant with `upto + weight ≥ r` wins,
and the last participant wins if the scan completes without a hit. -/
theorem C2_weighted_choice (ps : List (String × ℚ)) (g : RandGen) :
    (ps = [] → weightedChoice ps g = (none, g)) ∧
    (ps ≠ [] → totalWeight ps = 0 →
      weightedChoice ps g =
        (some ((ps.map Prod.fst).getD (randIndex ps.length g).1 (entryAt ps 0).1),
          advance g) ∧
      ∃ w, (weightedChoice ps g).1 = some w ∧ w ∈ ps.map Prod.fst) ∧
    (ps ≠ [] → totalWeight ps ≠ 0 →
      (weightedChoice ps g).2 = advance g ∧
      ∃ w, (weightedChoice ps g).1 = some w ∧
        ((∃ i, i < ps.length ∧ w = (entryAt ps i).1 ∧
            hitSum ps i ≥ uniformDraw ps g ∧
            ∀ j, j < i → hitSum ps j < uniformDraw ps g) ∨
         ((∀ i, i < ps.length → hitSum ps i < uniformDraw ps g) ∧
          w = (entryAt ps (ps.length - 1)).1))) := by
  refine ⟨?_, ?_, ?_⟩
  · rintro rfl
    rfl
  · intro hne h0
    cases ps with
    | nil => exact absurd rfl hne
    | cons p t =>
      simp only [totalWeight] at h0
      have heq : weightedChoice (p :: t) g = randChoice ((p :: t).map Prod.fst) g := by
        simp only [weightedChoice]
        rw [if_pos h0]
      constructor
      · rw [heq]
        simp only [randChoice, List.map_cons]
        rw [show (p.1 :: t.map Prod.fst).length = (p :: t).length by simp]
        rfl
      · rw [heq]
        simp only [randChoice, List.map_cons]
        refine ⟨_, rfl, ?_⟩
        exact getD_mem _ _ _ (List.mem_cons_self _ _)
  · intro hne h0
    cases ps with
    | nil => exact absurd rfl hne
    | cons p t =>
      simp only [totalWeight] at h0
      have hr : uniformDraw (p :: t) g =
          (randUniform (((p :: t).map Prod.snd).sum) g).1 := rfl
      simp only [weightedChoice]
      rw [if_neg h0]
      cases hs : scanLoop ((randUniform (((p :: t).map Prod.snd).sum) g).1) (p :: t) 0 with
      | some item =>
        refine ⟨rfl, item, rfl, Or.inl ?_⟩
        rcases (scanLoop_eq_some_iff _ (p :: t) 0 item).mp hs with ⟨i, hi, hw, hge, hlt⟩
        refine ⟨i, hi, hw, ?_, ?_⟩
        · rw [hr]
          rw [zero_add] at hge
          exact hge
        · intro j hj
          have := hlt j hj
          rw [zero_add] at this
          rw [hr]
          exact this
      | none =>
        refine ⟨rfl, _, rfl, Or.inr ⟨?_, ?_⟩⟩
        · intro i hi
          have := (scanLoop_eq_none_iff _ (p :: t) 0).mp hs i hi
          rw [zero_add] at this
          rw [hr]
          exact this
        · rw [getLast_eq_entryAt (p :: t) (List.cons_ne_nil p t)]

theorem C2_witness :
    weightedChoice ([] : List (String × ℚ)) ⟨halfStream "w", 0⟩ =
      (none, ⟨halfStream "w", 0⟩) ∧
    (∃ w, (weightedChoice [("a", 0), ("b", 0)] ⟨halfStream "w", 0⟩).1 = some w ∧
      w ∈ ([("a", 0), ("b", 0)] : List (String × ℚ)).map Prod.fst) ∧
    (weightedChoice [("a", 3), ("b", 1)] ⟨halfStream "w", 0⟩).2 =
      advance ⟨halfStream "w", 0⟩ :=
  ⟨(C2_weighted_choice [] ⟨halfStream "w", 0⟩).1 rfl,
    ((C2_weighted_choice [("a", 0), ("b", 0)] ⟨halfStream "w", 0⟩).2.1
      (by decide) (by decide)).2,
    ((C2_weighted_choice [("a", 3), ("b", 1)] ⟨halfStream "w", 0⟩).2.2
      (by decide) (by decide)).1⟩

/-- C3: the generator is seeded with the verification seed exactly once
(state `⟨sg seed, 0⟩`), the four categories consume draws from this single
generator in the fixed order Power Buyer, Volume King, Active Holder,
Lottery (each draw starting from the state the previous draw returned), and
each category's participant list is sorted by wallet address in ascending
lexicographic order before its draw. -/
theorem C3_seed_order_sorted (sg : String → Nat → ℚ) (th : List TokenHolder)
    (cs : List (String × CycleStat)) (ib : List (String × ℚ))
    (seed : String) (rules : Rules) (W : Winners)
    (h : calcWinners sg th cs ib seed rules = .ok W) :
    List.Sorted (fun a b : String × ℚ => a.1 ≤ b.1) W.pb_participants ∧
    List.Sorted (fun a b : String × ℚ => a.1 ≤ b.1) W.vk_participants ∧
    List.Sorted (fun a b : String × ℚ => a.1 ≤ b.1) W.ah_participants ∧
    List.Sorted (fun a b : String => a ≤ b) W.lottery_participants ∧
    W.pb_winner = (weightedChoice W.pb_participants ⟨sg seed, 0⟩).1 ∧
    W.vk_winner = (weightedChoice W.vk_participants
      (weightedChoice W.pb_participants ⟨sg seed, 0⟩).2).1 ∧
    W.ah_winner = (weightedChoice W.ah_participants
      (weightedChoice W.vk_participants
        (weightedChoice W.pb_participants ⟨sg seed, 0⟩).2).2).1 ∧
    W.lottery_winner = (if W.lottery_participants.isEmpty then none
      else (randChoice W.lottery_participants
        (weightedChoice W.ah_participants
          (weightedChoice W.vk_participants
            (weightedChoice W.pb_participants ⟨sg seed, 0⟩).2).2).2).1) := by
  rcases calcWinners_ok_spec sg th cs ib seed rules W h with
    ⟨pbRaw, vkRaw, _, _, hpbp, hvkp, hahp, hlotp, hw1, hw2, hw3, hw4⟩
  refine ⟨?_, ?_, ?_, ?_, hw1, hw2, hw3, hw4⟩
  · rw [hpbp]
    exact sorted_sortByWallet pbRaw
  · rw [hvkp]
    exact sorted_sortByWallet vkRaw
  · rw [hahp]
    exact sorted_sortByWallet _
  · rw [hlotp]
    exact sorted_sortB_str _

theorem C3_witness :
    List.Sorted (fun a b : String × ℚ => a.1 ≤ b.1) exWinners.pb_participants ∧
    List.Sorted (fun a b : String => a ≤ b) exWinners.lottery_participants ∧
    exWinners.pb_winner =
      (weightedChoice exWinners.pb_participants ⟨halfStream "test", 0⟩).1 ∧
    exWinners.vk_winner = (weightedChoice exWinners.vk_participants
      (weightedChoice exWinners.pb_participants ⟨halfStream "test", 0⟩).2).1 := by
  have h := C3_seed_order_sorted halfStream exHolders exStats exInitial "test"
    exRules exWinners (by decide)
  exact ⟨h.1, h.2.2.2.1, h.2.2.2.2.1, h.2.2.2.2.2.1⟩

/-- C4: a wallet is universally eligible iff it appears in the final-balance
snapshot, is not the sentinel key `_start_signature`, and its final balance
is at least `min_eligible_holding_amount`; and this one set contains every
participant of all four categories. -/
theorem C4_universal_eligibility (sg : String → Nat → ℚ) (th : List TokenHolder)
    (cs : List (String × CycleStat)) (ib : List (String × ℚ))
    (seed : String) (rules : Rules)
    (hnd : (th.map TokenHolder.address).Nodup) :
    (∀ w, w ∈ universallyEligible (dictOfHolders th) rules ↔
      (w ≠ "_start_signature" ∧ ∃ hld ∈ th, hld.address = w ∧
        hld.amount ≥ rules.min_eligible_holding_amount)) ∧
    (∀ W, calcWinners sg th cs ib seed rules = .ok W →
      (∀ p ∈ W.pb_participants, p.1 ∈ universallyEligible (dictOfHolders th) rules) ∧
      (∀ p ∈ W.vk_participants, p.1 ∈ universallyEligible (dictOfHolders th) rules) ∧
      (∀ p ∈ W.ah_participants, p.1 ∈ universallyEligible (dictOfHolders th) rules) ∧
      (∀ w ∈ W.lottery_participants,
        w ∈ universallyEligible (dictOfHolders th) rules)) := by
  constructor
  · intro w
    rw [mem_universallyEligible, dictOfHolders_eq_map th hnd]
    constructor
    · rintro ⟨hne, b, hmem, hge⟩
      rcases List.mem_map.mp hmem with ⟨hld, hmemt, heq⟩
      refine ⟨hne, hld, hmemt, ?_, ?_⟩
      · exact congrArg Prod.fst heq
      · have hb : hld.amount = b := congrArg Prod.snd heq
        rw [hb]
        exact hge
    · rintro ⟨hne, hld, hmemt, haddr, hamt⟩
      exact ⟨hne, hld.amount, List.mem_map.mpr ⟨hld, hmemt, by rw [haddr]⟩, hamt⟩
  · intro W hW
    rcases calcWinners_ok_spec sg th cs ib seed rules W hW with
      ⟨pbRaw, vkRaw, hpb, hvk, hpbp, hvkp, hahp, hlotp, _, _, _, _⟩
    refine ⟨?_, ?_, ?_, ?_⟩
    · intro p hp
      rw [hpbp] at hp
      simp only [sortByWallet] at hp
      obtain ⟨w, x⟩ := p
      rcases (rowFilter_ok_mem _ _ _ _ cs pbRaw hpb w x).mp (mem_sortB.mp hp) with
        ⟨s, _, helig, _, _⟩
      exact helig
    · intro p hp
      rw [hvkp] at hp
      simp only [sortByWallet] at hp
      obtain ⟨w, x⟩ := p
      rcases (rowFilter_ok_mem _ _ _ _ cs vkRaw hvk w x).mp (mem_sortB.mp hp) with
        ⟨s, _, helig, _, _⟩
      exact helig
    · intro p hp
      rw [hahp] at hp
      simp only [sortByWallet] at hp
      obtain ⟨w, x⟩ := p
      exact ((ahBuild_mem _ _ _ w x).mp (mem_sortB.mp hp)).1
    · intro w hw
      rw [hlotp] at hw
      exact mem_sortB.mp hw

theorem C4_witness :
    ("A" ∈ universallyEligible (dictOfHolders exHolders) exRules ↔
      ("A" ≠ "_start_signature" ∧ ∃ hld ∈ exHolders, hld.address = "A" ∧
        hld.amount ≥ exRules.min_eligible_holding_amount)) ∧
    ∀ p ∈ exWinners.pb_participants,
      p.1 ∈ universallyEligible (dictOfHolders exHolders) exRules := by
  have h := C4_universal_eligibility halfStream exHolders exStats exInitial "test"
    exRules (by decide)
  exact ⟨h.1 "A", (h.2 exWinners (by decide)).1⟩

/-- C5: the Power Buyer participant list holds exactly the universally
eligible wallets having a cycle stat with `largest_buy > 0`, weighted by
`largest_buy`; the Volume King participant list holds exactly the
universally eligible wallets having a cycle stat with
`total_volume ≥ min_trade_volume`, weighted by `total_volume`. -/
theorem C5_pb_vk_participants (sg : String → Nat → ℚ) (th : List TokenHolder)
    (cs : List (String × CycleStat)) (ib : List (String × ℚ))
    (seed : String) (rules : Rules) (W : Winners)
    (h : calcWinners sg th cs ib seed rules = .ok W) :
    (∀ w x, (w, x) ∈ W.pb_participants ↔
      ∃ s, (w, s) ∈ cs ∧ w ∈ universallyEligible (dictOfHolders th) rules ∧
        s.largest_buy = some x ∧ x > 0) ∧
    (∀ w x, (w, x) ∈ W.vk_participants ↔
      ∃ s, (w, s) ∈ cs ∧ w ∈ universallyEligible (dictOfHolders th) rules ∧
        s.total_volume = some x ∧ x ≥ rules.min_trade_volume) := by
  rcases calcWinners_ok_spec sg th cs ib seed rules W h with
    ⟨pbRaw, vkRaw, hpb, hvk, hpbp, hvkp, _, _, _, _, _, _⟩
  constructor
  · intro w x
    rw [hpbp]
    simp only [sortByWallet]
    rw [mem_sortB]
    have hx := rowFilter_ok_mem _ _ _ _ cs pbRaw hpb w x
    simpa [decide_eq_true_eq] using hx
  · intro w x
    rw [hvkp]
    simp only [sortByWallet]
    rw [mem_sortB]
    have hx := rowFilter_ok_mem _ _ _ _ cs vkRaw hvk w x
    simpa [decide_eq_true_eq] using hx

theorem C5_witness :
    (("A", (5 : ℚ)) ∈ exWinners.pb_participants ↔
      ∃ s, ("A", s) ∈ exStats ∧
        "A" ∈ universallyEligible (dictOfHolders exHolders) exRules ∧
        s.largest_buy = some 5 ∧ (5 : ℚ) > 0) ∧
    (("B", (30 : ℚ)) ∈ exWinners.vk_participants ↔
      ∃ s, ("B", s) ∈ exStats ∧
        "B" ∈ universallyEligible (dictOfHolders exHolders) exRules ∧
        s.total_volume = some 30 ∧ (30 : ℚ) ≥ exRules.min_trade_volume) := by
  have h := C5_pb_vk_participants halfStream exHolders exStats exInitial "test"
    exRules exWinners (by decide)
  exact ⟨h.1 "A" 5, h.2 "B" 30⟩

/-- C6: the Active Holder participant list holds exactly the universally
eligible wallets whose `net_change = final_balance - start_balance` (missing
start balances default to 0) is nonnegative and whose weight
`1.0 * net_change + 0.25 * start_balance` is strictly positive, each
carrying that weight. -/
theorem C6_active_holder_participants (sg : String → Nat → ℚ)
    (th : List TokenHolder) (cs : List (String × CycleStat))
    (ib : List (String × ℚ)) (seed : String) (rules : Rules) (W : Winners)
    (h : calcWinners sg th cs ib seed rules = .ok W) :
    ∀ w x, (w, x) ∈ W.ah_participants ↔
      (w ∈ universallyEligible (dictOfHolders th) rules ∧
        lookupD (dictOfHolders th) w 0 - lookupD ib w 0 ≥ 0 ∧
        x = 1 * (lookupD (dictOfHolders th) w 0 - lookupD ib w 0) +
          0.25 * lookupD ib w 0 ∧
        x > 0) := by
  rcases calcWinners_ok_spec sg th cs ib seed rules W h with
    ⟨pbRaw, vkRaw, _, _, _, _, hahp, _, _, _, _, _⟩
  intro w x
  rw [hahp]
  simp only [sortByWallet]
  rw [mem_sortB]
  exact ahBuild_mem _ _ _ w x

theorem C6_witness :
    ("A", (40 : ℚ)) ∈ exWinners.ah_participants ↔
      ("A" ∈ universallyEligible (dictOfHolders exHolders) exRules ∧
        lookupD (dictOfHolders exHolders) "A" 0 - lookupD exInitial "A" 0 ≥ 0 ∧
        (40 : ℚ) = 1 * (lookupD (dictOfHolders exHolders) "A" 0 -
          lookupD exInitial "A" 0) + 0.25 * lookupD exInitial "A" 0 ∧
        (40 : ℚ) > 0) :=
  C6_active_holder_participants halfStream exHolders exStats exInitial "test"
    exRules exWinners (by decide) "A" 40

/-- C9: the sentinel key `_start_signature` is never universally eligible,
never occurs on any category's participant list, and is never drawn as a
winner of any category. -/
theorem C9_sentinel_exclusion (sg : String → Nat → ℚ) (th : List TokenHolder)
    (cs : List (String × CycleStat)) (ib : List (String × ℚ))
    (seed : String) (rules : Rules) (W : Winners)
    (h : calcWinners sg th cs ib seed rules = .ok W) :
    "_start_signature" ∉ universallyEligible (dictOfHolders th) rules ∧
    (∀ x : ℚ, ("_start_signature", x) ∉ W.pb_participants) ∧
    (∀ x : ℚ, ("_start_signature", x) ∉ W.vk_participants) ∧
    (∀ x : ℚ, ("_start_signature", x) ∉ W.ah_participants) ∧
    "_start_signature" ∉ W.lottery_participants ∧
    W.pb_winner ≠ some "_start_signature" ∧
    W.vk_winner ≠ some "_start_signature" ∧
    W.ah_winner ≠ some "_start_signature" ∧
    W.lottery_winner ≠ some "_start_signature" := by
  rcases calcWinners_ok_spec sg th cs ib seed rules W h with
    ⟨pbRaw, vkRaw, hpb, hvk, hpbp, hvkp, hahp, hlotp, hw1, hw2, hw3, hw4⟩
  have hsent : "_start_signature" ∉ universallyEligible (dictOfHolders th) rules := by
    intro hmem
    exact ((mem_universallyEligible _ _ _).mp hmem).1 rfl
  have hpbm : ∀ x : ℚ, ("_start_signature", x) ∉ W.pb_participants := by
    intro x hmem
    rw [hpbp] at hmem
    simp only [sortByWallet] at hmem
    rcases (rowFilter_ok_mem _ _ _ _ cs pbRaw hpb _ x).mp (mem_sortB.mp hmem) with
      ⟨s, _, helig, _, _⟩
    exact hsent helig
  have hvkm : ∀ x : ℚ, ("_start_signature", x) ∉ W.vk_participants := by
    intro x hmem
    rw [hvkp] at hmem
    simp only [sortByWallet] at hmem
    rcases (rowFilter_ok_mem _ _ _ _ cs vkRaw hvk _ x).mp (mem_sortB.mp hmem) with
      ⟨s, _, helig, _, _⟩
    exact hsent helig
  have hahm : ∀ x : ℚ, ("_start_signature", x) ∉ W.ah_participants := by
    intro x hmem
    rw [hahp] at hmem
    simp only [sortByWallet] at hmem
    exact hsent ((ahBuild_mem _ _ _ _ x).mp (mem_sortB.mp hmem)).1
  have hlotm : "_start_signature" ∉ W.lottery_participants := by
    intro hmem
    rw [hlotp] at hmem
    exact hsent (mem_sortB.mp hmem)
  have hkey : ∀ (l : List (String × ℚ)),
      (∀ x : ℚ, ("_start_signature", x) ∉ l) →
      "_start_signature" ∉ l.map Prod.fst := by
    intro l hl hmem
    rcases List.mem_map.mp hmem with ⟨p, hp, hfst⟩
    obtain ⟨pw, px⟩ := p
    rw [show pw = "_start_signature" from hfst] at hp
    exact hl px hp
  refine ⟨hsent, hpbm, hvkm, hahm, hlotm, ?_, ?_, ?_, ?_⟩
  · rw [hw1]
    intro heq
    exact hkey W.pb_participants hpbm (weightedChoice_mem heq)
  · rw [hw2]
    intro heq
    exact hkey W.vk_participants hvkm (weightedChoice_mem heq)
  · rw [hw3]
    intro heq
    exact hkey W.ah_participants hahm (weightedChoice_mem heq)
  · rw [hw4]
    by_cases hl : W.lottery_participants.isEmpty
    · simp [hl]
    · rw [if_neg hl]
      intro heq
      exact hlotm (randChoice_mem heq)

theorem C9_witness :
    "_start_signature" ∉ universallyEligible (dictOfHolders exHolders) exRules ∧
    exWinners.lottery_winner ≠ some "_start_signature" := by
  have h := C9_sentinel_exclusion halfStream exHolders exStats exInitial "test"
    exRules exWinners (by decide)
  exact ⟨h.1, h.2.2.2.2.2.2.2.2⟩

/-- C10 (amended): if a cycle-stat row belonging to a UNIVERSALLY ELIGIBLE
wallet lacks `largest_buy` or `total_volume`, the computation aborts with an
error and produces no results at all.  (Rows of wallets outside the eligible
set are skipped unread by the short-circuit `and`, so they cannot abort.) -/
theorem C10_missing_field (sg : String → Nat → ℚ) (th : List TokenHolder)
    (cs : List (String × CycleStat)) (ib : List (String × ℚ))
    (seed : String) (rules : Rules) (w : String) (s : CycleStat)
    (hmem : (w, s) ∈ cs)
    (helig : w ∈ universallyEligible (dictOfHolders th) rules)
    (hmiss : s.largest_buy = none ∨ s.total_volume = none) :
    ∃ e, calculate_all_rewards_from_package sg th cs ib seed rules = .error e := by
  have herr : ∃ e, calcWinners sg th cs ib seed rules = .error e := by
    rcases hmiss with hm | hm
    · rcases rowFilter_error_of_missing (fun st => st.largest_buy)
        (fun v => v > 0) "largest_buy"
        (universallyEligible (dictOfHolders th) rules) cs w s hmem helig hm with ⟨e, he⟩
      have he2 : pbFilter (universallyEligible (dictOfHolders th) rules) cs =
          .error e := he
      refine ⟨e, ?_⟩
      simp only [calcWinners]
      rw [he2]
    · cases hpb : pbFilter (universallyEligible (dictOfHolders th) rules) cs with
      | error e =>
        refine ⟨e, ?_⟩
        simp only [calcWinners]
        rw [hpb]
      | ok pbRaw =>
        rcases rowFilter_error_of_missing (fun st => st.total_volume)
          (fun v => v ≥ rules.min_trade_volume) "total_volume"
          (universallyEligible (dictOfHolders th) rules) cs w s hmem helig hm with ⟨e, he⟩
        have he2 : vkFilter rules (universallyEligible (dictOfHolders th) rules) cs =
            .error e := he
        refine ⟨e, ?_⟩
        simp only [calcWinners]
        rw [hpb, he2]
  rcases herr with ⟨e, he⟩
  refine ⟨e, ?_⟩
  simp only [calculate_all_rewards_from_package]
  rw [he]

theorem C10_witness :
    ∃ e, calculate_all_rewards_from_package halfStream eligHolders lazyStats []
      "s" lazyRules = .error e :=
  C10_missing_field halfStream eligHolders lazyStats [] "s" lazyRules "a"
    ⟨none, none, none, none, none⟩ (by decide) (by decide) (Or.inl rfl)

theorem C10_counterexample :
    calculate_all_rewards_from_package halfStream lazyHolders lazyStats [] "s"
      lazyRules = .ok ⟨none, none, none, none⟩ := by decide

theorem sortByWallet_keys_nodup (l : List (String × ℚ))
    (hnd : (l.map Prod.fst).Nodup) : ((sortByWallet l).map Prod.fst).Nodup := by
  have hperm := sortB_perm (fun a b : String × ℚ => strLe a.1 b.1) l
  exact ((hperm.map Prod.fst).nodup_iff).mpr hnd

/-- C7 (amended): for each weighted category with a non-null winner record,
the reported `win_chance_percent` is `(winner_weight / total_weight) × 100`
when `total_weight > 0`, and the fallback `100.0` is used exactly when
`total_weight ≤ 0` (the code tests `total_weight > 0`, not
`total_weight == 0`); for a Lottery record it is
`(1 / participant_count) × 100`. -/
theorem C7_win_chance (sg : String → Nat → ℚ) (th : List TokenHolder)
    (cs : List (String × CycleStat)) (ib : List (String × ℚ))
    (seed : String) (rules : Rules) (W : Winners) (res : RewardResults)
    (hnd : (cs.map Prod.fst).Nodup)
    (hW : calcWinners sg th cs ib seed rules = .ok W)
    (hres : assemble cs (dictOfHolders th) ib W = .ok res) :
    (∀ rec, res.power_buyer = some rec → rec.win_chance_percent =
      if totalWeight W.pb_participants > 0 then
        partWeight W.pb_participants rec.wallet / totalWeight W.pb_participants * 100
      else 100) ∧
    (∀ rec, res.volume_king = some rec → rec.win_chance_percent =
      if totalWeight W.vk_participants > 0 then
        partWeight W.vk_participants rec.wallet / totalWeight W.vk_participants * 100
      else 100) ∧
    (∀ rec, res.active_holder = some rec → rec.win_chance_percent =
      if totalWeight W.ah_participants > 0 then
        partWeight W.ah_participants rec.wallet / totalWeight W.ah_participants * 100
      else 100) ∧
    (∀ rec, res.lottery = some rec → rec.win_chance_percent =
      1 / (W.lottery_participants.length : ℚ) * 100) := by
  rcases calcWinners_ok_spec sg th cs ib seed rules W hW with
    ⟨pbRaw, vkRaw, hpb, hvk, hpbp, hvkp, hahp, hlotp, hw1, hw2, hw3, hw4⟩
  simp only [assemble] at hres
  cases hA : assemblePB cs W with
  | error e =>
    rw [hA] at hres
    cases hres
  | ok pbRec =>
    rw [hA] at hres
    cases hB : assembleVK cs W with
    | error e =>
      rw [hB] at hres
      cases hres
    | ok vkRec =>
      rw [hB] at hres
      injection hres with hres
      subst hres
      refine ⟨?_, ?_, ?_, ?_⟩
      · intro rec hrec
        cases hwin : W.pb_winner with
        | none =>
          simp only [assemblePB, hwin] at hA
          injection hA with hA
          rw [← hA] at hrec
          cases hrec
        | some wlt =>
          by_cases hemp : wlt = ""
          · simp only [assemblePB, hwin] at hA
            rw [if_pos hemp] at hA
            injection hA with hA
            rw [← hA] at hrec
            cases hrec
          · have hmemk : wlt ∈ W.pb_participants.map Prod.fst := by
              apply weightedChoice_mem (g := ⟨sg seed, 0⟩)
              rw [← hw1]
              exact hwin
            rcases List.mem_map.mp hmemk with ⟨⟨w2, x⟩, hpmem, hfst⟩
            have hw2eq : w2 = wlt := hfst
            subst hw2eq
            have hraws : (pbRaw.map Prod.fst).Nodup :=
              hnd.sublist (rowFilter_keys_sublist _ _ _ _ cs pbRaw hpb)
            have hkeysnd : (W.pb_participants.map Prod.fst).Nodup := by
              rw [hpbp]
              exact sortByWallet_keys_nodup pbRaw hraws
            have hfind : W.pb_participants.find? (fun p => p.1 == w2) = some (w2, x) :=
              find?_eq_of_nodup _ _ _ hkeysnd hpmem
            have hpw : partWeight W.pb_participants w2 = x := by
              rw [partWeight, hfind]
              rfl
            have hpmem2 : (w2, x) ∈ pbRaw := by
              rw [hpbp] at hpmem
              simp only [sortByWallet] at hpmem
              exact mem_sortB.mp hpmem
            rcases (rowFilter_ok_mem _ _ _ _ cs pbRaw hpb w2 x).mp hpmem2 with
              ⟨s2, hcs2, _, hf2, _⟩
            have hfindcs : cs.find? (fun p => p.1 == w2) = some (w2, s2) :=
              find?_eq_of_nodup _ _ _ hnd hcs2
            simp only [assemblePB, hwin] at hA
            rw [if_neg hemp] at hA
            simp only [show dGet cs w2 = Except.ok s2 by unfold dGet; rw [hfindcs],
              show fGet s2.largest_buy "largest_buy" = Except.ok x by
                rw [hf2]; rfl] at hA
            cases htx : s2.largest_buy_tx with
            | none =>
              simp only [show fGet s2.largest_buy_tx "largest_buy_tx" =
                Except.error ("KeyError: " ++ "largest_buy_tx") by rw [htx]; rfl] at hA
              cases hA
            | some tx =>
              simp only [show fGet s2.largest_buy_tx "largest_buy_tx" =
                Except.ok tx by rw [htx]; rfl] at hA
              injection hA with hA
              rw [← hA] at hrec
              have hrec2 := Option.some.inj hrec
              rw [← hrec2]
              simp only [totalWeight]
              rw [hpw]
      · intro rec hrec
        cases hwin : W.vk_winner with
        | none =>
          simp only [assembleVK, hwin] at hB
          injection hB with hB
          rw [← hB] at hrec
          cases hrec
        | some wlt =>
          by_cases hemp : wlt = ""
          · simp only [assembleVK, hwin] at hB
            rw [if_pos hemp] at hB
            injection hB with hB
            rw [← hB] at hrec
            cases hrec
          · have hmemk : wlt ∈ W.vk_participants.map Prod.fst := by
              apply weightedChoice_mem
                (g := (weightedChoice W.pb_participants ⟨sg seed, 0⟩).2)
              rw [← hw2]
              exact hwin
            rcases List.mem_map.mp hmemk with ⟨⟨w2, x⟩, hpmem, hfst⟩
            have hw2eq : w2 = wlt := hfst
            subst hw2eq
            have hraws : (vkRaw.map Prod.fst).Nodup :=
              hnd.sublist (rowFilter_keys_sublist _ _ _ _ cs vkRaw hvk)
            have hkeysnd : (W.vk_participants.map Prod.fst).Nodup := by
              rw [hvkp]
              exact sortByWallet_keys_nodup vkRaw hraws
            have hfind : W.vk_participants.find? (fun p => p.1 == w2) = some (w2, x) :=
              find?_eq_of_nodup _ _ _ hkeysnd hpmem
            have hpw : partWeight W.vk_participants w2 = x := by
              rw [partWeight, hfind]
              rfl
            have hpmem2 : (w2, x) ∈ vkRaw := by
              rw [hvkp] at hpmem
              simp only [sortByWallet] at hpmem
              exact mem_sortB.mp hpmem
            rcases (rowFilter_ok_mem _ _ _ _ cs vkRaw hvk w2 x).mp hpmem2 with
              ⟨s2, hcs2, _, hf2, _⟩
            have hfindcs : cs.find? (fun p => p.1 == w2) = some (w2, s2) :=
              find?_eq_of_nodup _ _ _ hnd hcs2
            simp only [assembleVK, hwin] at hB
            rw [if_neg hemp] at hB
            simp only [show dGet cs w2 = Except.ok s2 by unfold dGet; rw [hfindcs],
              show fGet s2.total_volume "total_volume" = Except.ok x by
                rw [hf2]; rfl] at hB
            cases hbuys : s2.buys with
            | none =>
              simp only [show fGet s2.buys "buys" =
                Except.error ("KeyError: " ++ "buys") by rw [hbuys]; rfl] at hB
              cases hB
            | some bv =>
              simp only [show fGet s2.buys "buys" = Except.ok bv by rw [hbuys]; rfl] at hB
              cases hsells : s2.sells with
              | none =>
                simp only [show fGet s2.sells "sells" =
                  Except.error ("KeyError: " ++ "sells") by rw [hsells]; rfl] at hB
                cases hB
              | some sv =>
                simp only [show fGet s2.sells "sells" = Except.ok sv by
                  rw [hsells]; rfl] at hB
                injection hB with hB
                rw [← hB] at hrec
                have hrec2 := Option.some.inj hrec
                rw [← hrec2]
                simp only [totalWeight]
                rw [hpw]
      · intro rec hrec
        cases hwin : W.ah_winner with
        | none =>
          simp only [assembleAH, hwin] at hrec
          cases hrec
        | some wlt =>
          by_cases hemp : wlt = ""
          · simp only [assembleAH, hwin] at hrec
            rw [if_pos hemp] at hrec
            cases hrec
          · simp only [assembleAH, hwin] at hrec
            rw [if_neg hemp] at hrec
            have hrec2 := Option.some.inj hrec
            rw [← hrec2]
            simp only [totalWeight, partWeight]
      · intro rec hrec
        cases hwin : W.lottery_winner with
        | none =>
          simp only [assembleLot, hwin] at hrec
          cases hrec
        | some wlt =>
          by_cases hemp : wlt = ""
          · simp only [assembleLot, hwin] at hrec
            rw [if_pos hemp] at hrec
            cases hrec
          · simp only [assembleLot, hwin] at hrec
            rw [if_neg hemp] at hrec
            have hrec2 := Option.some.inj hrec
            have hn : 0 < W.lottery_participants.length := by
              rw [hw4] at hwin
              by_cases hl : W.lottery_participants.isEmpty
              · rw [if_pos hl] at hwin
                cases hwin
              · have : W.lottery_participants ≠ [] := by
                  intro hc
                  rw [hc] at hl
                  exact hl rfl
                exact List.length_pos.mpr this
            rw [← hrec2]
            simp only
            rw [if_pos hn]

theorem C7_witness :
    (∀ rec, exResults.power_buyer = some rec → rec.win_chance_percent =
      if totalWeight exWinners.pb_participants > 0 then
        partWeight exWinners.pb_participants rec.wallet /
          totalWeight exWinners.pb_participants * 100
      else 100) ∧
    (∀ rec, exResults.lottery = some rec → rec.win_chance_percent =
      1 / (exWinners.lottery_participants.length : ℚ) * 100) := by
  have h := C7_win_chance halfStream exHolders exStats exInitial "test" exRules
    exWinners exResults (by decide) (by decide) (by decide)
  exact ⟨h.1, h.2.2.2⟩

theorem C7_counterexample :
    (calculate_all_rewards_from_package halfStream negHolders negStats [] "s"
        negRules).toOption.bind
      (fun r => r.volume_king.map (fun rec => rec.win_chance_percent)) = some 100 ∧
    (calcWinners halfStream negHolders negStats [] "s" negRules).toOption.map
      (fun W => totalWeight W.vk_participants) = some (-3) ∧
    (calcWinners halfStream negHolders negStats [] "s" negRules).toOption.map
      (fun W => partWeight W.vk_participants "b") = some 2 ∧
    (calculate_all_rewards_from_package halfStream negHolders negStats [] "s"
        negRules).toOption.bind
      (fun r => r.volume_king.map (fun rec => rec.wallet)) = some "b" ∧
    (2 : ℚ) / (-3) * 100 ≠ 100 :=
  ⟨by decide, by decide, by decide, by decide, by decide⟩

theorem assembleAH_eq_none_iff (fb ib : List (String × ℚ)) (W : Winners) :
    assembleAH fb ib W = none ↔ W.ah_winner = none ∨ W.ah_winner = some "" := by
  cases hw : W.ah_winner with
  | none => simp [assembleAH, hw]
  | some wlt =>
    by_cases hemp : wlt = ""
    · simp [assembleAH, hw, hemp]
    · simp [assembleAH, hw, hemp]

theorem assembleLot_eq_none_iff (fb : List (String × ℚ)) (W : Winners) :
    assembleLot fb W = none ↔
      W.lottery_winner = none ∨ W.lottery_winner = some "" := by
  cases hw : W.lottery_winner with
  | none => simp [assembleLot, hw]
  | some wlt =>
    by_cases hemp : wlt = ""
    · simp [assembleLot, hw, hemp]
    · simp [assembleLot, hw, hemp]

theorem assemblePB_ok (cs : List (String × CycleStat)) (W : Winners)
    (hnd : (cs.map Prod.fst).Nodup)
    (hwf : ∀ p ∈ cs, p.2.largest_buy.isSome = true ∧ p.2.largest_buy_tx.isSome = true)
    (hwin : ∀ wlt, W.pb_winner = some wlt → wlt ∈ W.pb_participants.map Prod.fst)
    (hconn : ∀ w x, (w, x) ∈ W.pb_participants → ∃ s, (w, s) ∈ cs) :
    ∃ pbRec, assemblePB cs W = .ok pbRec ∧
      (pbRec = none ↔ W.pb_winner = none ∨ W.pb_winner = some "") := by
  cases hw : W.pb_winner with
  | none =>
    refine ⟨none, ?_, by simp⟩
    simp [assemblePB, hw]
  | some wlt =>
    by_cases hemp : wlt = ""
    · refine ⟨none, ?_, by simp [hemp]⟩
      simp [assemblePB, hw, hemp]
    · have hk := hwin wlt hw
      rcases List.mem_map.mp hk with ⟨⟨w2, x⟩, hpmem, hfst⟩
      have hweq : w2 = wlt := hfst
      subst hweq
      rcases hconn w2 x hpmem with ⟨s2, hcs2⟩
      have hfindcs : cs.find? (fun p => p.1 == w2) = some (w2, s2) :=
        find?_eq_of_nodup _ _ _ hnd hcs2
      rcases hwf (w2, s2) hcs2 with ⟨hlb, htx⟩
      cases hlb2 : s2.largest_buy with
      | none =>
        rw [hlb2] at hlb
        cases hlb
      | some lb =>
        cases htx2 : s2.largest_buy_tx with
        | none =>
          rw [htx2] at htx
          cases htx
        | some tx =>
          refine ⟨some ⟨w2, lb, tx,
            if (W.pb_participants.map Prod.snd).sum > 0 then
              lb / (W.pb_participants.map Prod.snd).sum * 100 else 100⟩, ?_, ?_⟩
          · simp only [assemblePB, hw]
            rw [if_neg hemp]
            simp only [show dGet cs w2 = Except.ok s2 by unfold dGet; rw [hfindcs],
              show fGet s2.largest_buy "largest_buy" = Except.ok lb by
                rw [hlb2]; rfl,
              show fGet s2.largest_buy_tx "largest_buy_tx" = Except.ok tx by
                rw [htx2]; rfl]
          · constructor
            · intro hcon
              cases hcon
            · rintro (hc | hc)
              · cases hc
              · exact absurd (Option.some.inj hc) hemp

theorem assembleVK_ok (cs : List (String × CycleStat)) (W : Winners)
    (hnd : (cs.map Prod.fst).Nodup)
    (hwf : ∀ p ∈ cs, p.2.total_volume.isSome = true ∧ p.2.buys.isSome = true ∧
      p.2.sells.isSome = true)
    (hwin : ∀ wlt, W.vk_winner = some wlt → wlt ∈ W.vk_participants.map Prod.fst)
    (hconn : ∀ w x, (w, x) ∈ W.vk_participants → ∃ s, (w, s) ∈ cs) :
    ∃ vkRec, assembleVK cs W = .ok vkRec ∧
      (vkRec = none ↔ W.vk_winner = none ∨ W.vk_winner = some "") := by
  cases hw : W.vk_winner with
  | none =>
    refine ⟨none, ?_, by simp⟩
    simp [assembleVK, hw]
  | some wlt =>
    by_cases hemp : wlt = ""
    · refine ⟨none, ?_, by simp [hemp]⟩
      simp [assembleVK, hw, hemp]
    · have hk := hwin wlt hw
      rcases List.mem_map.mp hk with ⟨⟨w2, x⟩, hpmem, hfst⟩
      have hweq : w2 = wlt := hfst
      subst hweq
      rcases hconn w2 x hpmem with ⟨s2, hcs2⟩
      have hfindcs : cs.find? (fun p => p.1 == w2) = some (w2, s2) :=
        find?_eq_of_nodup _ _ _ hnd hcs2
      rcases hwf (w2, s2) hcs2 with ⟨htv, hbuys, hsells⟩
      cases htv2 : s2.total_volume with
      | none =>
        rw [htv2] at htv
        cases htv
      | some tv =>
        cases hbuys2 : s2.buys with
        | none =>
          rw [hbuys2] at hbuys
          cases hbuys
        | some bv =>
          cases hsells2 : s2.sells with
          | none =>
            rw [hsells2] at hsells
            cases hsells
          | some sv =>
            refine ⟨some ⟨w2, tv, bv, sv,
              if (W.vk_participants.map Prod.snd).sum > 0 then
                tv / (W.vk_participants.map Prod.snd).sum * 100 else 100⟩, ?_, ?_⟩
            · simp only [assembleVK, hw]
              rw [if_neg hemp]
              simp only [show dGet cs w2 = Except.ok s2 by unfold dGet; rw [hfindcs],
                show fGet s2.total_volume "total_volume" = Except.ok tv by
                  rw [htv2]; rfl,
                show fGet s2.buys "buys" = Except.ok bv by rw [hbuys2]; rfl,
                show fGet s2.sells "sells" = Except.ok sv by rw [hsells2]; rfl]
            · constructor
              · intro hcon
                cases hcon
              · rintro (hc | hc)
                · cases hc
                · exact absurd (Option.some.inj hc) hemp

/-- C8 (amended): provided every cycle-stat row carries its required fields
(missing fields abort the run with a `KeyError`, per C10), the computation
returns normally whatever business-degenerate conditions hold (empty
eligible set, empty participant lists, zero total weights), and a category's
result is the explicit no-winner marker iff that category's participant list
is empty or the drawn winner is the empty-string wallet (which Python's
truthiness test conflates with "no winner"). -/
theorem C8_no_raise_nullability (sg : String → Nat → ℚ) (th : List TokenHolder)
    (cs : List (String × CycleStat)) (ib : List (String × ℚ))
    (seed : String) (rules : Rules)
    (hnd : (cs.map Prod.fst).Nodup)
    (hwf : ∀ p ∈ cs, p.2.largest_buy.isSome = true ∧ p.2.total_volume.isSome = true ∧
      p.2.largest_buy_tx.isSome = true ∧ p.2.buys.isSome = true ∧
      p.2.sells.isSome = true) :
    ∃ W res, calcWinners sg th cs ib seed rules = .ok W ∧
      calculate_all_rewards_from_package sg th cs ib seed rules = .ok res ∧
      (res.power_buyer = none ↔ W.pb_participants = [] ∨ W.pb_winner = some "") ∧
      (res.volume_king = none ↔ W.vk_participants = [] ∨ W.vk_winner = some "") ∧
      (res.active_holder = none ↔ W.ah_participants = [] ∨ W.ah_winner = some "") ∧
      (res.lottery = none ↔
        W.lottery_participants = [] ∨ W.lottery_winner = some "") := by
  rcases rowFilter_ok_of_isSome (fun st => st.largest_buy) (fun v => v > 0)
    "largest_buy" (universallyEligible (dictOfHolders th) rules) cs
    (fun p hp => (hwf p hp).1) with ⟨pbRaw, hpb⟩
  rcases rowFilter_ok_of_isSome (fun st => st.total_volume)
    (fun v => v ≥ rules.min_trade_volume) "total_volume"
    (universallyEligible (dictOfHolders th) rules) cs
    (fun p hp => (hwf p hp).2.1) with ⟨vkRaw, hvk⟩
  have hpb2 : pbFilter (universallyEligible (dictOfHolders th) rules) cs =
      .ok pbRaw := hpb
  have hvk2 : vkFilter rules (universallyEligible (dictOfHolders th) rules) cs =
      .ok vkRaw := hvk
  have hWex : ∃ W, calcWinners sg th cs ib seed rules = .ok W := by
    simp only [calcWinners]
    rw [hpb2, hvk2]
    exact ⟨_, rfl⟩
  rcases hWex with ⟨W, hW⟩
  rcases calcWinners_ok_spec sg th cs ib seed rules W hW with
    ⟨pbRaw2, vkRaw2, hpbX, hvkX, hpbp, hvkp, hahp, hlotp, hw1, hw2, hw3, hw4⟩
  rcases assemblePB_ok cs W hnd (fun p hp => ⟨(hwf p hp).1, (hwf p hp).2.2.1⟩)
    (fun wlt hwlt => by
      apply weightedChoice_mem (g := ⟨sg seed, 0⟩)
      rw [← hw1]
      exact hwlt)
    (fun w x hmem => by
      rw [hpbp] at hmem
      simp only [sortByWallet] at hmem
      rcases (rowFilter_ok_mem _ _ _ _ cs pbRaw2 hpbX w x).mp (mem_sortB.mp hmem) with
        ⟨s, hs, _, _, _⟩
      exact ⟨s, hs⟩) with ⟨pbRec, hA, hAiff⟩
  rcases assembleVK_ok cs W hnd
    (fun p hp => ⟨(hwf p hp).2.1, (hwf p hp).2.2.2.1, (hwf p hp).2.2.2.2⟩)
    (fun wlt hwlt => by
      apply weightedChoice_mem
        (g := (weightedChoice W.pb_participants ⟨sg seed, 0⟩).2)
      rw [← hw2]
      exact hwlt)
    (fun w x hmem => by
      rw [hvkp] at hmem
      simp only [sortByWallet] at hmem
      rcases (rowFilter_ok_mem _ _ _ _ cs vkRaw2 hvkX w x).mp (mem_sortB.mp hmem) with
        ⟨s, hs, _, _, _⟩
      exact ⟨s, hs⟩) with ⟨vkRec, hB, hBiff⟩
  have hwnPB : W.pb_winner = none ↔ W.pb_participants = [] := by
    rw [hw1]
    exact weightedChoice_none_iff _ _
  have hwnVK : W.vk_winner = none ↔ W.vk_participants = [] := by
    rw [hw2]
    exact weightedChoice_none_iff _ _
  have hwnAH : W.ah_winner = none ↔ W.ah_participants = [] := by
    rw [hw3]
    exact weightedChoice_none_iff _ _
  have hwnLot : W.lottery_winner = none ↔ W.lottery_participants = [] := by
    rw [hw4]
    by_cases hl : W.lottery_participants.isEmpty
    · rw [if_pos hl]
      simp [List.isEmpty_iff.mp hl]
    · rw [if_neg hl]
      have hne : W.lottery_participants ≠ [] := by
        intro hc
        rw [hc] at hl
        exact hl rfl
      constructor
      · intro hc
        rcases randChoice_isSome W.lottery_participants
          (weightedChoice W.ah_participants
            (weightedChoice W.vk_participants
              (weightedChoice W.pb_participants ⟨sg seed, 0⟩).2).2).2 hne with ⟨w, hwch⟩
        rw [hwch] at hc
        cases hc
      · intro hc
        exact absurd hc hne
  refine ⟨W, ⟨pbRec, vkRec, assembleAH (dictOfHolders th) ib W,
    assembleLot (dictOfHolders th) W⟩, hW, ?_, ?_, ?_, ?_, ?_⟩
  · simp only [calculate_all_rewards_from_package]
    rw [hW]
    simp only [assemble]
    rw [hA, hB]
  · exact hAiff.trans (or_congr hwnPB Iff.rfl)
  · exact hBiff.trans (or_congr hwnVK Iff.rfl)
  · exact (assembleAH_eq_none_iff _ _ _).trans (or_congr hwnAH Iff.rfl)
  · exact (assembleLot_eq_none_iff _ _).trans (or_congr hwnLot Iff.rfl)

theorem C8_witness :
    ∃ W res, calcWinners halfStream exHolders exStats exInitial "test" exRules =
        .ok W ∧
      calculate_all_rewards_from_package halfStream exHolders exStats exInitial
        "test" exRules = .ok res ∧
      (res.power_buyer = none ↔ W.pb_participants = [] ∨ W.pb_winner = some "") ∧
      (res.volume_king = none ↔ W.vk_participants = [] ∨ W.vk_winner = some "") ∧
      (res.active_holder = none ↔ W.ah_participants = [] ∨ W.ah_winner = some "") ∧
      (res.lottery = none ↔
        W.lottery_participants = [] ∨ W.lottery_winner = some "") :=
  C8_no_raise_nullability halfStream exHolders exStats exInitial "test" exRules
    (by decide) (by decide)

theorem C8_counterexample :
    (calculate_all_rewards_from_package halfStream emptyNameHolders [] [] "s"
        ⟨0, 0⟩).toOption.map (fun r => r.lottery.isSome) = some false ∧
    (calcWinners halfStream emptyNameHolders [] [] "s" ⟨0, 0⟩).toOption.map
      (fun W => W.lottery_participants) = some [""] :=
  ⟨by decide, by decide⟩

end PumpPot
